import Mathlib

/-!
# Verification of the caching and rate-limiting layer

A shallow embedding, in Lean 4, of the shared caching and rate-limiting
subsystem of the `zep-ai-memory-api` repository:

* `src/core/cache/redis_cache.py` — `RedisCache._generate_key`,
  `_serialize_data`, `_deserialize_data`, `get`, `set`, `delete`,
  `_calculate_dynamic_ttl`;
* `src/core/middleware/rate_limit.py` — `RateLimiter.is_allowed`,
  `_calculate_retry_after`, `is_whitelisted`, `add_to_whitelist`, and the
  check loop / response annotation of `RateLimitMiddleware.dispatch`.

The backing Redis store is modelled as explicit state (string values,
sorted sets, plain sets, hashes, and per-key expiration deadlines), and
each operation is a pure state transformer that additionally reports the
list of store commands it issued, so that frame properties ("no backend
call happens") are provable.  Timestamps (`time.time()` readings) are
passed in explicitly as rationals; machine floats are modelled as exact
rationals, which is faithful at the granularity of every property proved
here.  A backend exception is modelled by an explicit fault input to the
operation that the `try` block of the source wraps.
-/

set_option maxRecDepth 100000

/-! ## SHA-256 (model of Python's `hashlib.sha256(...).hexdigest()`)

`RedisCache._generate_key` hashes the joined key parts with SHA-256 and
keeps the first 16 hex digits.  The hash is implemented here bit-for-bit
after FIPS 180-4, on `ℕ` with explicit reduction mod 2^32. -/

def w32 (n : ℕ) : ℕ := n % 4294967296

def rotr (n x : ℕ) : ℕ := w32 ((x >>> n) ||| (x <<< (32 - n)))

def not32 (x : ℕ) : ℕ := 4294967295 ^^^ x

def bSig0 (x : ℕ) : ℕ := rotr 2 x ^^^ rotr 13 x ^^^ rotr 22 x

def bSig1 (x : ℕ) : ℕ := rotr 6 x ^^^ rotr 11 x ^^^ rotr 25 x

def sSig0 (x : ℕ) : ℕ := rotr 7 x ^^^ rotr 18 x ^^^ (x >>> 3)

def sSig1 (x : ℕ) : ℕ := rotr 17 x ^^^ rotr 19 x ^^^ (x >>> 10)

def sha256K : List ℕ :=
  [1116352408, 1899447441, 3049323471, 3921009573, 961987163, 1508970993,
   2453635748, 2870763221, 3624381080, 310598401, 607225278, 1426881987,
   1925078388, 2162078206, 2614888103, 3248222580, 3835390401, 4022224774,
   264347078, 604807628, 770255983, 1249150122, 1555081692, 1996064986,
   2554220882, 2821834349, 2952996808, 3210313671, 3336571891, 3584528711,
   113926993, 338241895, 666307205, 773529912, 1294757372, 1396182291,
   1695183700, 1986661051, 2177026350, 2456956037, 2730485921, 2820302411,
   3259730800, 3345764771, 3516065817, 3600352804, 4094571909, 275423344,
   430227734, 506948616, 659060556, 883997877, 958139571, 1322822218,
   1537002063, 1747873779, 1955562222, 2024104815, 2227730452, 2361852424,
   2428436474, 2756734187, 3204031479, 3329325298]

def sha256H0 : List ℕ :=
  [1779033703, 3144134277, 1013904242, 2773480762,
   1359893119, 2600822924, 528734635, 1541459225]

/-- UTF-8 bytes of one character (the `str.encode()` step). -/
def utf8Bytes (c : Char) : List ℕ :=
  let n := c.toNat
  if n < 128 then [n]
  else if n < 2048 then [192 + n / 64, 128 + n % 64]
  else if n < 65536 then [224 + n / 4096, 128 + n / 64 % 64, 128 + n % 64]
  else [240 + n / 262144, 128 + n / 4096 % 64, 128 + n / 64 % 64, 128 + n % 64]

def strBytes (s : String) : List ℕ := (s.data.map utf8Bytes).flatten

/-- Big-endian bytes of `n`, `k` bytes wide. -/
def beBytes : ℕ → ℕ → List ℕ
  | 0, _ => []
  | k + 1, n => (n >>> (8 * k)) % 256 :: beBytes k n

/-- FIPS 180-4 padding: `0x80`, zeros to 56 mod 64, 8-byte bit length. -/
def shaPad (msg : List ℕ) : List ℕ :=
  let len := msg.length
  let zeros := (119 - len % 64) % 64
  msg ++ [0x80] ++ List.replicate zeros 0 ++ beBytes 8 (8 * len)

/-- 4 big-endian bytes at a time into 32-bit words. -/
def bytesToWords : List ℕ → List ℕ
  | b0 :: b1 :: b2 :: b3 :: rest =>
      (((b0 * 256 + b1) * 256 + b2) * 256 + b3) :: bytesToWords rest
  | _ => []

/-- Split into 16-word blocks (fuel keeps the recursion structural). -/
def toBlocksFuel : ℕ → List ℕ → List (List ℕ)
  | 0, _ => []
  | _ + 1, [] => []
  | n + 1, ws => ws.take 16 :: toBlocksFuel n (ws.drop 16)

def toBlocks (ws : List ℕ) : List (List ℕ) := toBlocksFuel ws.length ws

/-- Extend the 16-word block to the 64-word message schedule. -/
def extendWords : ℕ → List ℕ → List ℕ
  | 0, ws => ws
  | i + 1, ws =>
      let l := ws.length
      extendWords i (ws ++ [w32 (sSig1 (ws.getD (l - 2) 0) + ws.getD (l - 7) 0 +
        sSig0 (ws.getD (l - 15) 0) + ws.getD (l - 16) 0)])

/-- One compression round on the state `[a, b, c, d, e, f, g, h]`. -/
def shaRound (st : List ℕ) (kw : ℕ × ℕ) : List ℕ :=
  match st with
  | [a, b, c, d, e, f, g, h] =>
      let ch := (e &&& f) ^^^ (not32 e &&& g)
      let t1 := w32 (h + bSig1 e + ch + kw.1 + kw.2)
      let maj := (a &&& b) ^^^ (a &&& c) ^^^ (b &&& c)
      let t2 := w32 (bSig0 a + maj)
      [w32 (t1 + t2), a, b, c, w32 (d + t1), e, f, g]
  | other => other

def compressBlock (h : List ℕ) (block : List ℕ) : List ℕ :=
  let ws := extendWords 48 block
  let st := (sha256K.zip ws).foldl shaRound h
  (h.zip st).map fun p => w32 (p.1 + p.2)

def hexDigit (n : ℕ) : Char := Char.ofNat (if n < 10 then 48 + n else 87 + n)

def wordHex (x : ℕ) : List Char :=
  [hexDigit ((x >>> 28) % 16), hexDigit ((x >>> 24) % 16),
   hexDigit ((x >>> 20) % 16), hexDigit ((x >>> 16) % 16),
   hexDigit ((x >>> 12) % 16), hexDigit ((x >>> 8) % 16),
   hexDigit ((x >>> 4) % 16), hexDigit (x % 16)]

/-- `hashlib.sha256(s.encode()).hexdigest()`. -/
def sha256Hex (s : String) : String :=
  let blocks := toBlocks (bytesToWords (shaPad (strBytes s)))
  let hFinal := blocks.foldl compressBlock sha256H0
  ⟨(hFinal.map wordHex).flatten⟩

/-! ## `RedisCache._generate_key`

```python
key_parts = [str(arg) for arg in args]
key_string = ":".join(key_parts)
key_hash = hashlib.sha256(key_string.encode()).hexdigest()[:16]
return f"zep_api:{prefix}:{key_hash}"
```

The key parts are modelled as the strings `str(arg)` already yields at the
cache call sites (`str` is the identity on `str` arguments). -/

def generate_key (pfx : String) (args : List String) : String :=
  let key_string := String.intercalate ":" args
  let key_hash : String := ⟨(sha256Hex key_string).data.take 16⟩
  "zep_api:" ++ pfx ++ ":" ++ key_hash

/-! ## The backing store

Redis state as seen by this layer: string values (`GET`/`SETEX`), sorted
sets (the sliding windows; the member `str(score)` is determined by the
score, so a sorted set is a finite set of scores), plain sets (the
whitelist), hashes (hit/miss stats), and one expiration deadline per key
(absolute time, as Redis keeps it).  An expired key reads as absent. -/

structure RedisState where
  strings : String → Option String
  zsets : String → Finset ℚ
  smembers : String → Finset String
  hashes : String → String → ℤ
  deadline : String → Option ℚ

/-- The store commands a call issues, for frame properties. -/
inductive RedisCmd where
  | zremrangebyscore (key : String) (lo hi : ℚ)
  | zcard (key : String)
  | zadd (key : String) (score : ℚ)
  | expire (key : String) (ttl : ℚ)
  | sismember (key member : String)
  | sadd (key member : String)
  | get (key : String)
  | setex (key : String) (ttl : ℕ) (value : String)
  | del (key : String)
  | hincrby (key field : String) (n : ℤ)
deriving DecidableEq, Repr

def keyLive (st : RedisState) (now : ℚ) (k : String) : Bool :=
  match st.deadline k with
  | Option.none => true
  | Option.some d => decide (now < d)

def liveZset (st : RedisState) (now : ℚ) (k : String) : Finset ℚ :=
  if keyLive st now k then st.zsets k else ∅

def liveSet (st : RedisState) (now : ℚ) (k : String) : Finset String :=
  if keyLive st now k then st.smembers k else ∅

def liveString (st : RedisState) (now : ℚ) (k : String) : Option String :=
  if keyLive st now k then st.strings k else Option.none

/-- The configuration the layer consumes (`src/core/config.py`). -/
structure Settings where
  rate_limit_enabled : Bool
  rate_limit_requests : ℕ
  rate_limit_window : ℕ
  cache_enabled : Bool
  cache_ttl : ℕ

/-- Floor of a rational, kernel-executable (`den` is always positive). -/
def ratFloor (q : ℚ) : ℤ := Int.fdiv q.num q.den

/-- Python `int(...)` on a real number: truncation toward zero. -/
def pyTrunc (q : ℚ) : ℤ := if 0 ≤ q then ratFloor q else -ratFloor (-q)

/-! ## `RateLimiter` (`src/core/middleware/rate_limit.py`) -/

/-- The dict returned by `is_allowed`, with its optional fields. -/
structure RateLimitDecision where
  allowed : Bool
  limit : ℤ
  remaining : ℤ
  reset_time : ℚ
  retry_after : Option ℕ := Option.none
  error : Option String := Option.none
deriving DecidableEq, Repr

/-- `RateLimiter._calculate_retry_after`.  `current_count / limit` is
Python float division, modelled exactly on `ℚ`; `window // 4` and
`window // 2` are floor divisions on `ℕ`.  (The source would raise on
`limit = 0`; every caller passes a positive limit.) -/
def calculate_retry_after (current_count limit window : ℕ) : ℕ :=
  let excess_ratio : ℚ := (current_count : ℚ) / (limit : ℚ)
  if excess_ratio ≤ 6 / 5 then min 60 (window / 4)
  else if excess_ratio ≤ 2 then min 300 (window / 2)
  else min 900 window

/-- `f"rate_limit:{key}:{int(current_time // 60)}"` — the window key is
bucketed by the current minute. -/
def rateKey (key : String) (now : ℚ) : String :=
  "rate_limit:" ++ key ++ ":" ++ toString (ratFloor (now / 60))

/-- `RateLimiter.is_allowed`.  The four pipelined commands
(`zremrangebyscore`, `zcard`, `zadd`, `expire`) execute as one atomic
batch (`pipeline()` is transactional), so the whole call is a single
state transformation.  `fault` models an exception raised by the backend
inside the `try` block: the `except` arm returns the fail-open decision
and the aborted transaction leaves the store unchanged.  Note the
recorded count is taken *before* the current event is inserted
(`zcard` precedes `zadd` in the pipeline). -/
def is_allowed (s : Settings) (st : RedisState) (fault : Option String)
    (key : String) (limit : ℕ) (window : ℕ) (burst_multiplier : ℚ)
    (current_time : ℚ) : RateLimitDecision × RedisState × List RedisCmd :=
  if s.rate_limit_enabled = false then
    ({ allowed := true, limit := limit, remaining := limit,
       reset_time := current_time + window }, st, [])
  else
    match fault with
    | Option.some e =>
        ({ allowed := true, limit := limit, remaining := limit,
           reset_time := current_time + window, error := Option.some e }, st, [])
    | Option.none =>
        let window_start : ℚ := current_time - window
        let rate_key := rateKey key current_time
        let base := liveZset st current_time rate_key
        let pruned := base.filter fun t => ¬(0 ≤ t ∧ t ≤ window_start)
        let current_count := pruned.card
        let st' : RedisState :=
          { st with
            zsets := Function.update st.zsets rate_key (insert current_time pruned),
            deadline := Function.update st.deadline rate_key
              (Option.some (current_time + window)) }
        let trace := [RedisCmd.zremrangebyscore rate_key 0 window_start,
                      RedisCmd.zcard rate_key,
                      RedisCmd.zadd rate_key current_time,
                      RedisCmd.expire rate_key window]
        let effective_limit := pyTrunc ((limit : ℚ) * burst_multiplier)
        if effective_limit < (current_count : ℤ) then
          ({ allowed := false, limit := limit, remaining := 0,
             reset_time := current_time + window,
             retry_after := Option.some (calculate_retry_after current_count limit window) },
           st', trace)
        else
          ({ allowed := true, limit := limit,
             remaining := max 0 ((limit : ℤ) - current_count),
             reset_time := current_time + window }, st', trace)

/-- `RateLimiter.is_whitelisted`: a `SISMEMBER` on the shared whitelist
set; any exception yields `False`. -/
def is_whitelisted (st : RedisState) (fault : Bool) (now : ℚ) (key : String) :
    Bool × List RedisCmd :=
  if fault then (false, [])
  else (decide (key ∈ liveSet st now "rate_limit:whitelist"),
        [RedisCmd.sismember "rate_limit:whitelist" key])

/-- `RateLimiter.add_to_whitelist`: `SADD` on the shared whitelist key,
then — only when `ttl` is truthy (not `None`, not `0`) — `EXPIRE` on that
whole key.  `SADD` revives an expired key as a fresh set with no deadline
and otherwise leaves the key's deadline alone. -/
def add_to_whitelist (st : RedisState) (fault : Bool) (key : String)
    (ttl : Option ℕ) (now : ℚ) : Bool × RedisState × List RedisCmd :=
  if fault then (false, st, [])
  else
    let wk := "rate_limit:whitelist"
    let wasLive := keyLive st now wk
    let base := if wasLive then st.smembers wk else ∅
    let keptDeadline := if wasLive then st.deadline wk else Option.none
    let st₁ : RedisState :=
      { st with smembers := Function.update st.smembers wk (insert key base),
                deadline := Function.update st.deadline wk keptDeadline }
    match ttl with
    | Option.some t =>
        if t ≠ 0 then
          (true,
           { st₁ with deadline := Function.update st₁.deadline wk (Option.some (now + t)) },
           [RedisCmd.sadd wk key, RedisCmd.expire wk t])
        else (true, st₁, [RedisCmd.sadd wk key])
    | Option.none => (true, st₁, [RedisCmd.sadd wk key])

/-! ## `RateLimitMiddleware.dispatch` — the ordered check loop and the
response annotation -/

/-- One entry of `rate_limit_checks`: identity key, limit, window. -/
structure CheckSpec where
  key : String
  limit : ℕ
  window : ℕ

/-- The `for check_type, key, limit, window in rate_limit_checks` loop:
whitelisted keys `continue` (their check is skipped), the first rejecting
decision short-circuits; otherwise the loop falls through.  Each
`is_allowed` uses the default `burst_multiplier = 1.5`. -/
def runChecks (s : Settings) (st : RedisState) (now : ℚ) :
    List CheckSpec → Option RateLimitDecision × RedisState × List RedisCmd
  | [] => (Option.none, st, [])
  | c :: rest =>
    let w := is_whitelisted st false now c.key
    if w.1 then
      let r := runChecks s st now rest
      (r.1, r.2.1, w.2 ++ r.2.2)
    else
      let a := is_allowed s st Option.none c.key c.limit c.window (3 / 2) now
      if a.1.allowed then
        let r := runChecks s a.2.1 now rest
        (r.1, r.2.1, w.2 ++ a.2.2 ++ r.2.2)
      else (Option.some a.1, a.2.1, w.2 ++ a.2.2)

/-- The outcome of `dispatch` past the check loop: either an HTTP 429
carrying the rejecting decision, or a success response annotated with the
`X-RateLimit-Limit` / `X-RateLimit-Remaining` / `X-RateLimit-Reset`
headers (the reset header is `str(int(reset_time))`). -/
inductive DispatchOutcome where
  | blocked (d : RateLimitDecision)
  | success (headers : Option (ℤ × ℤ × ℤ))
deriving DecidableEq, Repr

/-- `RateLimitMiddleware.dispatch` after the checks list is built:
run the loop; on rejection return 429 with that decision.  Otherwise the
request is processed and — crucially — the response headers come from a
*fresh* `is_allowed` call on the first check, made after the handler ran
(`tHeader` is that later `time.time()` reading). -/
def dispatch (s : Settings) (st : RedisState) (checks : List CheckSpec)
    (tLoop tHeader : ℚ) : DispatchOutcome × RedisState × List RedisCmd :=
  let r := runChecks s st tLoop checks
  match r.1 with
  | Option.some d => (DispatchOutcome.blocked d, r.2.1, r.2.2)
  | Option.none =>
    match checks with
    | [] => (DispatchOutcome.success Option.none, r.2.1, r.2.2)
    | c :: _ =>
      let a := is_allowed s r.2.1 Option.none c.key c.limit c.window (3 / 2) tHeader
      (DispatchOutcome.success (Option.some (a.1.limit, a.1.remaining, pyTrunc a.1.reset_time)),
       a.2.1, r.2.2 ++ a.2.2)

/-- A sequence of `is_allowed` calls for one key, threading the store:
since each call's command batch is atomic, any concurrent execution of
such calls is some sequential order of them. -/
def runCalls (s : Settings) (st : RedisState) (key : String)
    (limit window : ℕ) (burst : ℚ) : List ℚ → List RateLimitDecision × RedisState
  | [] => ([], st)
  | t :: rest =>
    let a := is_allowed s st Option.none key limit window burst t
    let r := runCalls s a.2.1 key limit window burst rest
    (a.1 :: r.1, r.2)

/-- An empty store and a configuration with rate limiting enabled, for
concrete runs. -/
def emptyStore : RedisState :=
  { strings := fun _ => Option.none, zsets := fun _ => ∅,
    smembers := fun _ => ∅, hashes := fun _ _ => 0,
    deadline := fun _ => Option.none }

def enabledSettings : Settings :=
  { rate_limit_enabled := true, rate_limit_requests := 100,
    rate_limit_window := 60, cache_enabled := true, cache_ttl := 300 }


/-! ## Python values and `json.dumps` / `json.loads`

`RedisCache._serialize_data` serializes dicts and lists with
`json.dumps(data, default=str, ensure_ascii=False)` and everything else
with `str(data)`; `_deserialize_data` first tries `json.loads` and falls
back to returning the raw string.  Python values are modelled without
floats (no cache call site stores one and none of the checked properties
involves one), so `default=str` never fires on the modelled values. -/

inductive PyVal where
  | str (s : String)
  | int (n : ℤ)
  | bool (b : Bool)
  | none
  | list (xs : List PyVal)
  | dict (kvs : List (String × PyVal))
deriving Repr

/-- Decimal digits of a natural number (fuel keeps it structural). -/
def natDigitsAux : ℕ → ℕ → List Char
  | 0, _ => []
  | fuel + 1, n =>
    if n < 10 then [Char.ofNat (48 + n)]
    else natDigitsAux fuel (n / 10) ++ [Char.ofNat (48 + n % 10)]

def natDigits (n : ℕ) : List Char := natDigitsAux (n + 1) n

/-- `str`/`json` rendering of a Python int. -/
def intChars (n : ℤ) : List Char :=
  if n < 0 then '-' :: natDigits (-n).toNat else natDigits n.toNat

/-- One character of a JSON string literal, as `json.dumps` with
`ensure_ascii=False` emits it: short escapes for `"` `\` and the usual
control characters, `\u00xx` for the other control characters, everything
else raw. -/
def escapeChar (c : Char) : List Char :=
  if c = '"' then ['\\', '"']
  else if c = '\\' then ['\\', '\\']
  else if c = '\n' then ['\\', 'n']
  else if c = '\r' then ['\\', 'r']
  else if c = '\t' then ['\\', 't']
  else if c.toNat = 8 then ['\\', 'b']
  else if c.toNat = 12 then ['\\', 'f']
  else if c.toNat < 32 then ['\\', 'u', '0', '0', hexDigit (c.toNat / 16), hexDigit (c.toNat % 16)]
  else [c]

def strLit (s : String) : List Char :=
  '"' :: ((s.data.map escapeChar).flatten ++ ['"'])

mutual
/-- `json.dumps(v, ensure_ascii=False)` with the default separators
`", "` and `": "`. -/
def dumpsChars : PyVal → List Char
  | PyVal.str s => strLit s
  | PyVal.int n => intChars n
  | PyVal.bool b => if b then "true".data else "false".data
  | PyVal.none => "null".data
  | PyVal.list xs => '[' :: (dumpsList xs ++ [']'])
  | PyVal.dict kvs => '\x7b' :: (dumpsDict kvs ++ ['\x7d'])

def dumpsList : List PyVal → List Char
  | [] => []
  | [v] => dumpsChars v
  | v :: v' :: rest => dumpsChars v ++ ',' :: ' ' :: dumpsList (v' :: rest)

def dumpsDict : List (String × PyVal) → List Char
  | [] => []
  | [kv] => strLit kv.1 ++ ':' :: ' ' :: dumpsChars kv.2
  | kv :: kv' :: rest =>
      strLit kv.1 ++ ':' :: ' ' :: dumpsChars kv.2 ++ ',' :: ' ' :: dumpsDict (kv' :: rest)
end

def json_dumps (v : PyVal) : String := ⟨dumpsChars v⟩

/-! The `json.loads` side: a recursive-descent JSON parser.  It covers
what `json.loads` accepts on the inputs this layer can see, with two
documented simplifications on inputs no modelled value produces: number
literals with leading zeros are accepted rather than rejected, and float
literals are not parsed (the modelled values contain no floats, and
`json.dumps` of a modelled value never emits either form).  Duplicate
object keys are kept in order rather than last-wins-merged; actual Python
dicts never serialize to duplicate keys. -/

def isWsChar (c : Char) : Bool := c = ' ' || c = '\t' || c = '\n' || c = '\r'

def skipWs : List Char → List Char
  | [] => []
  | c :: rest => if isWsChar c then skipWs rest else c :: rest

def parseHexDigit (c : Char) : Option ℕ :=
  if '0' ≤ c ∧ c ≤ '9' then Option.some (c.toNat - 48)
  else if 'a' ≤ c ∧ c ≤ 'f' then Option.some (c.toNat - 87)
  else if 'A' ≤ c ∧ c ≤ 'F' then Option.some (c.toNat - 55)
  else Option.none

/-- The body of a JSON string literal, after the opening quote: returns
the decoded characters and the input after the closing quote.  Raw
control characters are rejected (strict mode). -/
def parseStringBody : List Char → Option (List Char × List Char)
  | [] => Option.none
  | c :: rest =>
    if c = '"' then Option.some ([], rest)
    else if c = '\\' then
      match rest with
      | [] => Option.none
      | e :: rest₁ =>
        if e = '"' ∨ e = '\\' ∨ e = '/' then
          (parseStringBody rest₁).map fun p => (e :: p.1, p.2)
        else if e = 'b' then (parseStringBody rest₁).map fun p => (Char.ofNat 8 :: p.1, p.2)
        else if e = 'f' then (parseStringBody rest₁).map fun p => (Char.ofNat 12 :: p.1, p.2)
        else if e = 'n' then (parseStringBody rest₁).map fun p => ('\n' :: p.1, p.2)
        else if e = 'r' then (parseStringBody rest₁).map fun p => ('\r' :: p.1, p.2)
        else if e = 't' then (parseStringBody rest₁).map fun p => ('\t' :: p.1, p.2)
        else if e = 'u' then
          match rest₁ with
          | h1 :: h2 :: h3 :: h4 :: rest₂ =>
            match parseHexDigit h1, parseHexDigit h2, parseHexDigit h3, parseHexDigit h4 with
            | Option.some a, Option.some b, Option.some c', Option.some d =>
                (parseStringBody rest₂).map fun p =>
                  (Char.ofNat (((a * 16 + b) * 16 + c') * 16 + d) :: p.1, p.2)
            | _, _, _, _ => Option.none
          | _ => Option.none
        else Option.none
    else if c.toNat < 32 then Option.none
    else (parseStringBody rest).map fun p => (c :: p.1, p.2)

def parseDigitsAux : List Char → ℕ → ℕ × List Char
  | [], acc => (acc, [])
  | c :: rest, acc =>
    if c.isDigit then parseDigitsAux rest (acc * 10 + (c.toNat - 48))
    else (acc, c :: rest)

def parseNumber : List Char → Option (ℤ × List Char)
  | [] => Option.none
  | c :: rest =>
    if c = '-' then
      match rest with
      | d :: _ =>
        if d.isDigit then
          let p := parseDigitsAux rest 0
          Option.some (-(p.1 : ℤ), p.2)
        else Option.none
      | [] => Option.none
    else if c.isDigit then
      let p := parseDigitsAux (c :: rest) 0
      Option.some ((p.1 : ℤ), p.2)
    else Option.none

/-- The `v (, v)* ]` tail of a JSON array: `pv` parses one value (the
parser one nesting level down), `n` bounds the number of elements. -/
def elemsLoop (pv : List Char → Option (PyVal × List Char)) :
    ℕ → List Char → Option (List PyVal × List Char)
  | 0, _ => Option.none
  | n + 1, cs =>
    match pv cs with
    | Option.none => Option.none
    | Option.some (v, r) =>
      match skipWs r with
      | ',' :: r₂ => (elemsLoop pv n r₂).map fun p => (v :: p.1, p.2)
      | ']' :: r₂ => Option.some ([v], r₂)
      | _ => Option.none

/-- The `"k": v (, "k": v)* }` tail of a JSON object. -/
def membersLoop (pv : List Char → Option (PyVal × List Char)) :
    ℕ → List Char → Option (List (String × PyVal) × List Char)
  | 0, _ => Option.none
  | n + 1, cs =>
    match skipWs cs with
    | '"' :: r =>
      match parseStringBody r with
      | Option.none => Option.none
      | Option.some (k, r₁) =>
        match skipWs r₁ with
        | ':' :: r₂ =>
          match pv r₂ with
          | Option.none => Option.none
          | Option.some (v, r₃) =>
            match skipWs r₃ with
            | ',' :: r₄ => (membersLoop pv n r₄).map fun p => ((⟨k⟩, v) :: p.1, p.2)
            | '\x7d' :: r₄ => Option.some ([(⟨k⟩, v)], r₄)
            | _ => Option.none
        | _ => Option.none
    | _ => Option.none

/-- One JSON value.  `fuel` bounds the nesting depth; each level hands
`parseVal fuel` to the element/member loops, whose own bound is the
remaining input length (an element consumes at least one character). -/
def parseVal : ℕ → List Char → Option (PyVal × List Char)
  | 0, _ => Option.none
  | fuel + 1, cs =>
    match skipWs cs with
    | [] => Option.none
    | c :: rest =>
      if c = '"' then (parseStringBody rest).map fun p => (PyVal.str ⟨p.1⟩, p.2)
      else if c = '\x7b' then
        if (skipWs rest).head? = Option.some '\x7d' then
          Option.some (PyVal.dict [], (skipWs rest).tail)
        else
          (membersLoop (parseVal fuel) ((skipWs rest).length + 1) (skipWs rest)).map
            fun p => (PyVal.dict p.1, p.2)
      else if c = '[' then
        if (skipWs rest).head? = Option.some ']' then
          Option.some (PyVal.list [], (skipWs rest).tail)
        else
          (elemsLoop (parseVal fuel) ((skipWs rest).length + 1) (skipWs rest)).map
            fun p => (PyVal.list p.1, p.2)
      else if c = 't' then
        match rest with
        | 'r' :: 'u' :: 'e' :: r => Option.some (PyVal.bool true, r)
        | _ => Option.none
      else if c = 'f' then
        match rest with
        | 'a' :: 'l' :: 's' :: 'e' :: r => Option.some (PyVal.bool false, r)
        | _ => Option.none
      else if c = 'n' then
        match rest with
        | 'u' :: 'l' :: 'l' :: r => Option.some (PyVal.none, r)
        | _ => Option.none
      else (parseNumber (c :: rest)).map fun p => (PyVal.int p.1, p.2)

/-- `json.loads(s)`: parse one value, allow trailing whitespace only.
The fuel `length + 1` always suffices (each nesting level consumes at
least one character). -/
def json_loads (s : String) : Option PyVal :=
  match parseVal (s.data.length + 1) s.data with
  | Option.some (v, r) => if skipWs r = [] then Option.some v else Option.none
  | Option.none => Option.none

/-- `RedisCache._serialize_data`: structured encoding for dicts and
lists, `str(data)` for everything else. -/
def serialize_data : PyVal → String
  | PyVal.dict kvs => json_dumps (PyVal.dict kvs)
  | PyVal.list xs => json_dumps (PyVal.list xs)
  | PyVal.str s => s
  | PyVal.int n => ⟨intChars n⟩
  | PyVal.bool b => if b then "True" else "False"
  | PyVal.none => "None"

/-- `RedisCache._deserialize_data`: try `json.loads`, fall back to the
raw string on a parse error. -/
def deserialize_data (s : String) : PyVal :=
  match json_loads s with
  | Option.some v => v
  | Option.none => PyVal.str s

/-! ## `RedisCache` operations -/

/-- `RedisCache._calculate_dynamic_ttl`: category multiplier, shrunk for
large payloads, applied to the configured base TTL; `int(...)` truncates. -/
def calculate_dynamic_ttl (s : Settings) (pfx : String) (data_size : ℕ) : ℕ :=
  let base_ttl := s.cache_ttl
  let multiplier : ℚ :=
    if pfx = "memory" then 3 / 2
    else if pfx = "session" then 2
    else if pfx = "user" then 3
    else if pfx = "health" then 1 / 10
    else if pfx = "metrics" then 1 / 2
    else 1
  let multiplier := if 10000 < data_size then multiplier * (7 / 10)
    else if 1000 < data_size then multiplier * (9 / 10)
    else multiplier
  (pyTrunc ((base_ttl : ℚ) * multiplier)).toNat

/-- `RedisCache._update_hit_stats`: `HINCRBY` one counter, re-`EXPIRE`
the stats key for 24h; its own failures are swallowed. -/
def update_hit_stats (st : RedisState) (hit : Bool) (now : ℚ) :
    RedisState × List RedisCmd :=
  let sk := "zep_api:stats:cache"
  let field := if hit then "hits" else "misses"
  let baseH : String → ℤ := if keyLive st now sk then st.hashes sk else fun _ => 0
  ({ st with
      hashes := Function.update st.hashes sk
        (Function.update baseH field (baseH field + 1)),
      deadline := Function.update st.deadline sk (Option.some (now + 86400)) },
   [RedisCmd.hincrby sk field 1, RedisCmd.expire sk 86400])

/-- `RedisCache.get`: disabled cache short-circuits to `None` before any
backend call; otherwise fetch, record hit/miss, deserialize on hit.  A
backend exception (`fault`) degrades to a miss. -/
def cache_get (s : Settings) (st : RedisState) (fault : Bool)
    (pfx : String) (key_parts : List String) (now : ℚ) :
    Option PyVal × RedisState × List RedisCmd :=
  if s.cache_enabled = false then (Option.none, st, [])
  else if fault then (Option.none, st, [])
  else
    let cache_key := generate_key pfx key_parts
    match liveString st now cache_key with
    | Option.some cached_data =>
      let u := update_hit_stats st true now
      (Option.some (deserialize_data cached_data), u.1,
       RedisCmd.get cache_key :: u.2)
    | Option.none =>
      let u := update_hit_stats st false now
      (Option.none, u.1, RedisCmd.get cache_key :: u.2)

/-- `RedisCache.set`: disabled cache short-circuits to `False` before any
backend call; otherwise `SETEX` with the explicit TTL if truthy, else the
dynamic TTL.  A backend exception (`fault`) returns `False`. -/
def cache_set (s : Settings) (st : RedisState) (fault : Bool)
    (pfx : String) (key_parts : List String) (value : PyVal)
    (ttl : Option ℕ) (now : ℚ) : Bool × RedisState × List RedisCmd :=
  if s.cache_enabled = false then (false, st, [])
  else if fault then (false, st, [])
  else
    let cache_key := generate_key pfx key_parts
    let serialized_value := serialize_data value
    let cache_ttl : ℕ :=
      match ttl with
      | Option.some t => if t ≠ 0 then t else calculate_dynamic_ttl s pfx serialized_value.length
      | Option.none => calculate_dynamic_ttl s pfx serialized_value.length
    (true,
     { st with
        strings := Function.update st.strings cache_key (Option.some serialized_value),
        deadline := Function.update st.deadline cache_key (Option.some (now + cache_ttl)) },
     [RedisCmd.setex cache_key cache_ttl serialized_value])

/-- `RedisCache.delete`: disabled cache short-circuits to `False` before
any backend call; otherwise `DEL`, reporting whether a key existed. -/
def cache_delete (s : Settings) (st : RedisState) (fault : Bool)
    (pfx : String) (key_parts : List String) (now : ℚ) :
    Bool × RedisState × List RedisCmd :=
  if s.cache_enabled = false then (false, st, [])
  else if fault then (false, st, [])
  else
    let cache_key := generate_key pfx key_parts
    let existed := (liveString st now cache_key).isSome
    (existed,
     { st with
        strings := Function.update st.strings cache_key Option.none,
        deadline := Function.update st.deadline cache_key Option.none },
     [RedisCmd.del cache_key])

def keysNodup : List String → Bool
  | [] => true
  | k :: rest => !rest.contains k && keysNodup rest

mutual
/-- Recursively: every dict inside has pairwise distinct keys — the
values that actual Python dicts can take. -/
def nodupKeys : PyVal → Bool
  | PyVal.str _ => true
  | PyVal.int _ => true
  | PyVal.bool _ => true
  | PyVal.none => true
  | PyVal.list xs => nodupKeysList xs
  | PyVal.dict kvs => keysNodup (kvs.map Prod.fst) && nodupKeysDict kvs

def nodupKeysList : List PyVal → Bool
  | [] => true
  | v :: rest => nodupKeys v && nodupKeysList rest

def nodupKeysDict : List (String × PyVal) → Bool
  | [] => true
  | kv :: rest => nodupKeys kv.2 && nodupKeysDict rest
end

def PyVal.isContainer : PyVal → Bool
  | PyVal.dict _ => true
  | PyVal.list _ => true
  | _ => false

mutual
/-- Nesting depth of a value — the parser fuel one parse of it needs. -/
def pvDepth : PyVal → ℕ
  | PyVal.str _ => 1
  | PyVal.int _ => 1
  | PyVal.bool _ => 1
  | PyVal.none => 1
  | PyVal.list xs => 1 + pvDepthList xs
  | PyVal.dict kvs => 1 + pvDepthDict kvs

def pvDepthList : List PyVal → ℕ
  | [] => 0
  | v :: rest => max (pvDepth v) (pvDepthList rest)

def pvDepthDict : List (String × PyVal) → ℕ
  | [] => 0
  | kv :: rest => max (pvDepth kv.2) (pvDepthDict rest)
end


/-! ## Concrete instances used by the checks below -/

/-- A configuration with caching disabled. -/
def cacheDisabledSettings : Settings :=
  { enabledSettings with cache_enabled := false }

/-- Call times one tenth of a second apart, all inside minute bucket 16
and spanning well under one 60-second window. -/
def c1Times (n : ℕ) : List ℚ := (List.range n).map fun i => 1000 + (i : ℚ) / 10

/-- The store after 16 admitted calls for key `k`. -/
def c1Store : RedisState :=
  (runCalls enabledSettings emptyStore "k" 10 60 (3 / 2) (c1Times 16)).2

/-- A store whose whitelist holds `vip` while `vip`'s window already
records three events. -/
def c4Store : RedisState :=
  { emptyStore with
      smembers := Function.update emptyStore.smembers "rate_limit:whitelist" {"vip"},
      zsets := Function.update emptyStore.zsets "rate_limit:vip:16"
        (insert 1000 (insert (1000 + 1 / 10) {1000 + 2 / 10})) }

/-- A store with `old` already whitelisted (no deadline on the set). -/
def c10Store : RedisState :=
  { emptyStore with
      smembers := Function.update emptyStore.smembers "rate_limit:whitelist" {"old"} }

def c5Checks : List CheckSpec := [⟨"ip1", 10, 60⟩]

/-- Three distinct call times inside one bucket and one window. -/
def c3Times : List ℚ := [1000, 1000 + 1 / 10, 1000 + 2 / 10]

/-- A representative dict value for the cache round-trip check. -/
def c9Dict : PyVal :=
  PyVal.dict [("a", PyVal.int 1),
              ("b", PyVal.list [PyVal.str "x", PyVal.none, PyVal.bool false]),
              ("c", PyVal.dict [("n", PyVal.int (-7))])]

/-! # Theorems -/

/-! ## Arithmetic bridges -/

theorem ratFloor_eq_floor (q : ℚ) : ratFloor q = ⌊q⌋ := by
  rw [ratFloor, Int.fdiv_eq_ediv _ (by exact_mod_cast Nat.zero_le q.den), Rat.floor_def]

theorem pyTrunc_eq_floor {q : ℚ} (h : 0 ≤ q) : pyTrunc q = ⌊q⌋ := by
  rw [pyTrunc, if_pos h, ratFloor_eq_floor]

/-- The effective limit is at least the nominal limit for the default
burst multiplier. -/
theorem le_effective_limit (l : ℕ) : (l : ℤ) ≤ pyTrunc ((l : ℚ) * (3 / 2)) := by
  rw [pyTrunc_eq_floor (by positivity)]
  exact Int.le_floor.mpr (by push_cast; nlinarith [Nat.cast_nonneg (α := ℚ) l])

/-! ## C1 — admission boundary -/

/-- C1 counterexample: with `limit = 10`, `window = 60`,
`burst_multiplier = 1.5` on a fresh key, all of the first 16 calls are
allowed — the claim says the 16th is rejected.  (The recorded count is
read before the current event is inserted, so the count *after*
insertion may exceed the effective limit by one on an allowed call.) -/
theorem C1_counterexample :
    ((runCalls enabledSettings emptyStore "k" 10 60 (3 / 2) (c1Times 16)).1.map
      RateLimitDecision.allowed) = List.replicate 16 true := by
  with_unfolding_all decide

/-- C1 (amended): an enabled, fault-free check is rejected exactly when
the count of recorded events *before* inserting the current event
exceeds `int(limit * burst_multiplier)` — equivalently, when the count
after insertion exceeds it by more than one; consequently, with
`limit = 10`, `window = 60`, `burst_multiplier = 1.5` on a fresh key
(calls inside one minute bucket), the first 16 calls are allowed and the
17th is rejected, with `retry_after = 30 ≤ 60`. -/
theorem C1_amended_boundary :
    (∀ (s : Settings) (st : RedisState) (key : String) (limit window : ℕ)
        (burst now : ℚ), s.rate_limit_enabled = true →
      ((is_allowed s st Option.none key limit window burst now).1.allowed = false ↔
        pyTrunc ((limit : ℚ) * burst) <
          ((((liveZset st now (rateKey key now)).filter
              (fun t => ¬(0 ≤ t ∧ t ≤ now - (window : ℚ)))).card : ℕ) : ℤ))) ∧
    ((runCalls enabledSettings emptyStore "k" 10 60 (3 / 2) (c1Times 17)).1.map
        RateLimitDecision.allowed = List.replicate 16 true ++ [false] ∧
      (runCalls enabledSettings emptyStore "k" 10 60 (3 / 2) (c1Times 17)).1.map
        RateLimitDecision.retry_after =
          List.replicate 16 Option.none ++ [Option.some 30] ∧
      (30 : ℕ) ≤ 60) := by
  constructor
  · intro s st key limit window burst now hs
    simp only [is_allowed, hs, Bool.true_eq_false, if_false]
    split
    · rename_i h
      simpa using h
    · rename_i h
      simpa using h
  · exact ⟨by with_unfolding_all decide, by with_unfolding_all decide, by norm_num⟩

/-- C1 witness: after 16 admitted calls the 17th call's pre-insertion
count (16) exceeds the effective limit (15) and the boundary criterion
rejects it. -/
theorem C1_witness :
    enabledSettings.rate_limit_enabled = true ∧
    pyTrunc (((10 : ℕ) : ℚ) * (3 / 2)) <
      ((((liveZset c1Store (1000 + (16 : ℚ) / 10)
            (rateKey "k" (1000 + (16 : ℚ) / 10))).filter
          (fun t => ¬(0 ≤ t ∧ t ≤ (1000 + (16 : ℚ) / 10) - ((60 : ℕ) : ℚ)))).card : ℕ) : ℤ) ∧
    (is_allowed enabledSettings c1Store Option.none "k" 10 60 (3 / 2)
      (1000 + (16 : ℚ) / 10)).1.allowed = false :=
  ⟨rfl, by with_unfolding_all decide,
   (C1_amended_boundary.1 enabledSettings c1Store "k" 10 60 (3 / 2)
      (1000 + (16 : ℚ) / 10) rfl).mpr (by with_unfolding_all decide)⟩

/-! ## C2 — fail-open on backend fault -/

/-- C2: if the backend raises during an (enabled) rate check, the call
returns — rather than propagates — a decision with `allowed = true`,
`remaining = limit`, and the error detail; the model's `is_allowed` is a
total function, so nothing escapes the `except` arm. -/
theorem C2_fail_open (s : Settings) (st : RedisState) (e : String)
    (key : String) (limit window : ℕ) (burst now : ℚ)
    (hs : s.rate_limit_enabled = true) :
    (is_allowed s st (Option.some e) key limit window burst now).1 =
      { allowed := true, limit := limit, remaining := limit,
        reset_time := now + window, error := Option.some e } := by
  simp [is_allowed, hs]

/-- C2 witness: a concrete faulted check. -/
theorem C2_witness :
    enabledSettings.rate_limit_enabled = true ∧
    (is_allowed enabledSettings emptyStore (Option.some "connection lost")
        "k" 5 60 (3 / 2) 100).1 =
      { allowed := true, limit := (5 : ℕ), remaining := (5 : ℕ),
        reset_time := 100 + ((60 : ℕ) : ℚ), error := Option.some "connection lost" } :=
  ⟨rfl, C2_fail_open enabledSettings emptyStore "connection lost" "k" 5 60 (3 / 2) 100 rfl⟩

/-! ## C3 — no lost updates across the atomic batches -/

/-- The store after one enabled, fault-free `is_allowed` call: the
window set is pruned-and-extended and its expiry refreshed, whether or
not the call was admitted. -/
theorem is_allowed_state (s : Settings) (st : RedisState) (key : String)
    (l w : ℕ) (burst now : ℚ) (hs : s.rate_limit_enabled = true) :
    (is_allowed s st Option.none key l w burst now).2.1 =
      { st with
          zsets := Function.update st.zsets (rateKey key now)
            (insert now ((liveZset st now (rateKey key now)).filter
              (fun t => ¬((0 : ℚ) ≤ t ∧ t ≤ now - (w : ℚ))))),
          deadline := Function.update st.deadline (rateKey key now)
            (Option.some (now + w)) } := by
  simp only [is_allowed, hs, Bool.true_eq_false, if_false]
  split <;> rfl

/-- The runCalls window invariant: starting from a store whose window
set for `rkey` is `prev` (live at every call time), a strictly
increasing sequence of call times — mutually within one window, all in
the bucket `rkey`, and each later than every event of `prev` by less
than the window — leaves exactly `prev ∪ times` recorded.  Each
`is_allowed` is one atomic batch, so an arbitrary concurrent execution
of the calls is some such sequence. -/
theorem runCalls_window_inv (s : Settings) (hs : s.rate_limit_enabled = true)
    (key : String) (l w : ℕ) (burst : ℚ) (rkey : String) :
    ∀ (times : List ℚ) (st : RedisState) (prev : Finset ℚ),
      st.zsets rkey = prev →
      (∀ t ∈ times, liveZset st t rkey = prev) →
      (∀ t ∈ times, rateKey key t = rkey) →
      times.Pairwise (· < ·) →
      (∀ t ∈ times, ∀ u ∈ times, t - u < (w : ℚ)) →
      (∀ p ∈ prev, ∀ t ∈ times, p < t ∧ t - p < (w : ℚ)) →
      ((runCalls s st key l w burst times).2).zsets rkey = prev ∪ times.toFinset
  | [], st, prev, hst, _, _, _, _, _ => by simpa [runCalls] using hst
  | t :: rest, st, prev, hst, hlive, hkey, hpair, hspan, hprev => by
    have hkt : rateKey key t = rkey := hkey t (List.mem_cons_self t rest)
    have hfilter : prev.filter (fun x => ¬((0 : ℚ) ≤ x ∧ x ≤ t - (w : ℚ))) = prev := by
      apply Finset.filter_true_of_mem
      intro p hp
      have h2 := (hprev p hp t (List.mem_cons_self t rest)).2
      exact fun hand => absurd hand.2 (not_le.mpr (by linarith))
    have hstate : (is_allowed s st Option.none key l w burst t).2.1 =
        { st with
            zsets := Function.update st.zsets rkey (insert t prev),
            deadline := Function.update st.deadline rkey (Option.some (t + w)) } := by
      rw [is_allowed_state s st key l w burst t hs, hkt,
        hlive t (List.mem_cons_self t rest), hfilter]
    have hhead : ∀ u ∈ rest, t < u :=
      (List.pairwise_cons.mp hpair).1
    have hrec := runCalls_window_inv s hs key l w burst rkey rest
      { st with
          zsets := Function.update st.zsets rkey (insert t prev),
          deadline := Function.update st.deadline rkey (Option.some (t + w)) }
      (insert t prev)
      (Function.update_same _ _ _)
      (fun u hu => by
        have huw : u - t < (w : ℚ) :=
          hspan u (List.mem_cons_of_mem t hu) t (List.mem_cons_self t rest)
        simp only [liveZset, keyLive, Function.update_same]
        rw [decide_eq_true (by linarith : u < t + (w : ℚ))]
        simp)
      (fun u hu => hkey u (List.mem_cons_of_mem t hu))
      ((List.pairwise_cons.mp hpair).2)
      (fun u hu u' hu' =>
        hspan u (List.mem_cons_of_mem t hu) u' (List.mem_cons_of_mem t hu'))
      (fun p hp u hu => by
        rcases Finset.mem_insert.mp hp with rfl | hp'
        · exact ⟨hhead u hu,
            hspan u (List.mem_cons_of_mem p hu) p (List.mem_cons_self p rest)⟩
        · exact hprev p hp' u (List.mem_cons_of_mem t hu))
    simp only [runCalls]
    rw [hstate, hrec, List.toFinset_cons, Finset.insert_union, Finset.union_insert]

/-- C3: starting from a fresh key, running any strictly ordered sequence
of `is_allowed` calls whose times share one minute bucket and mutually
fit inside one window leaves exactly one recorded timestamp per call —
the recorded count never undercounts the calls (rejected calls are
recorded too), because each remove–count–insert–refresh batch executes
atomically. -/
theorem C3_no_lost_updates (s : Settings) (key : String) (l w : ℕ)
    (burst : ℚ) (rkey : String) (times : List ℚ)
    (hs : s.rate_limit_enabled = true)
    (hkey : ∀ t ∈ times, rateKey key t = rkey)
    (hpair : times.Pairwise (· < ·))
    (hspan : ∀ t ∈ times, ∀ u ∈ times, t - u < (w : ℚ)) :
    (((runCalls s emptyStore key l w burst times).2).zsets rkey).card =
      times.length := by
  rw [runCalls_window_inv s hs key l w burst rkey times emptyStore ∅ rfl
      (fun t _ => by simp [liveZset, keyLive, emptyStore])
      hkey hpair hspan (fun p hp => absurd hp (Finset.not_mem_empty p)),
    Finset.empty_union]
  exact List.toFinset_card_of_nodup (hpair.imp ne_of_lt)

/-- C3 witness: three interleaved calls (the third is even rejected at
`limit = 1`) leave exactly three recorded timestamps. -/
theorem C3_witness :
    (enabledSettings.rate_limit_enabled = true ∧
      (∀ t ∈ c3Times, rateKey "k" t = "rate_limit:k:16") ∧
      c3Times.Pairwise (· < ·) ∧
      (∀ t ∈ c3Times, ∀ u ∈ c3Times, t - u < ((60 : ℕ) : ℚ))) ∧
    (((runCalls enabledSettings emptyStore "k" 1 60 (3 / 2) c3Times).2).zsets
      "rate_limit:k:16").card = c3Times.length :=
  ⟨⟨rfl, by with_unfolding_all decide, by with_unfolding_all decide,
    by with_unfolding_all decide⟩,
   C3_no_lost_updates enabledSettings "k" 1 60 (3 / 2) "rate_limit:k:16"
     c3Times rfl (by with_unfolding_all decide) (by with_unfolding_all decide)
     (by with_unfolding_all decide)⟩

/-! ## C4 — whitelist bypass -/

/-- C4: a rate check for a currently whitelisted key passes without any
window operation: the store is returned unchanged (no timestamp
inserted, no window pruned or refreshed) and the only store command
issued is the whitelist membership probe — no count is read — whatever
the window already records for that key. -/
theorem C4_whitelist_bypass (s : Settings) (st : RedisState) (c : CheckSpec)
    (now : ℚ) (hwl : (is_whitelisted st false now c.key).1 = true) :
    runChecks s st now [c] =
      (Option.none, st, [RedisCmd.sismember "rate_limit:whitelist" c.key]) := by
  simp only [runChecks]
  rw [hwl]
  simp [is_whitelisted]

/-- C4 witness: `vip` is whitelisted and bypasses its check although its
window already records three events. -/
theorem C4_witness :
    (is_whitelisted c4Store false 1000 "vip").1 = true ∧
    runChecks enabledSettings c4Store 1000 [⟨"vip", 10, 60⟩] =
      (Option.none, c4Store, [RedisCmd.sismember "rate_limit:whitelist" "vip"]) :=
  ⟨by with_unfolding_all decide,
   C4_whitelist_bypass enabledSettings c4Store ⟨"vip", 10, 60⟩ 1000
     (by with_unfolding_all decide)⟩

/-! ## C5 — response headers and the post-dispatch re-check -/

/-- C5 counterexample: one successful request on a fresh key.  The first
check's pre-dispatch decision has `remaining = 10`, but the response
headers carry `remaining = 9` — they come from a *fresh* `is_allowed`
call made after the handler — and that call records a second event in
the window (final count 2 for a single request). -/
theorem C5_counterexample :
    (dispatch enabledSettings emptyStore c5Checks 1000 (1000 + 1 / 2)).1 =
      DispatchOutcome.success (Option.some (10, 9, 1060)) ∧
    (is_allowed enabledSettings emptyStore Option.none "ip1" 10 60 (3 / 2)
        1000).1.remaining = 10 ∧
    ((dispatch enabledSettings emptyStore c5Checks 1000 (1000 + 1 / 2)).2.1.zsets
        "rate_limit:ip1:16").card = 2 := by
  refine ⟨?_, ?_, ?_⟩ <;> with_unfolding_all decide

/-- C5 (amended): after a request passes its (single, non-whitelisted,
fresh-key) check, the middleware runs `is_allowed` again for that first
check and annotates the response from that post-dispatch decision: the
headers are `limit`, `limit - 1` (one less than the pre-dispatch
decision's `remaining = limit`) and `int(reset)` of the *second* call,
and the annotation inserts a second timestamp into the first check's
window. -/
theorem C5_amended_headers (s : Settings) (st : RedisState) (key : String)
    (l w : ℕ) (t₁ t₂ : ℚ) (hs : s.rate_limit_enabled = true) (hl : 1 ≤ l)
    (hfresh : st.zsets (rateKey key t₁) = ∅)
    (hwl : (is_whitelisted st false t₁ key).1 = false)
    (hbucket : rateKey key t₂ = rateKey key t₁)
    (horder : t₁ < t₂) (hspan : t₂ - t₁ < (w : ℚ)) :
    (is_allowed s st Option.none key l w (3 / 2) t₁).1.remaining = (l : ℤ) ∧
    (dispatch s st [⟨key, l, w⟩] t₁ t₂).1 =
      DispatchOutcome.success (Option.some ((l : ℤ), (l : ℤ) - 1, pyTrunc (t₂ + w))) ∧
    ((dispatch s st [⟨key, l, w⟩] t₁ t₂).2.1.zsets (rateKey key t₁)).card = 2 := by
  have hlive₁ : liveZset st t₁ (rateKey key t₁) = ∅ := by
    rw [liveZset, hfresh, ite_self]
  have heff0 : (0 : ℤ) ≤ pyTrunc ((l : ℚ) * (3 / 2)) :=
    le_trans (Int.ofNat_nonneg l) (le_effective_limit l)
  have heff1 : (1 : ℤ) ≤ pyTrunc ((l : ℚ) * (3 / 2)) :=
    le_trans (by exact_mod_cast hl) (le_effective_limit l)
  have ha₁ : is_allowed s st Option.none key l w (3 / 2) t₁ =
      ({ allowed := true, limit := l, remaining := max 0 ((l : ℤ) - 0),
         reset_time := t₁ + w },
       { st with
          zsets := Function.update st.zsets (rateKey key t₁) {t₁},
          deadline := Function.update st.deadline (rateKey key t₁)
            (Option.some (t₁ + w)) },
       [RedisCmd.zremrangebyscore (rateKey key t₁) 0 (t₁ - w),
        RedisCmd.zcard (rateKey key t₁),
        RedisCmd.zadd (rateKey key t₁) t₁,
        RedisCmd.expire (rateKey key t₁) w]) := by
    simp only [is_allowed, hs, Bool.true_eq_false, if_false, hlive₁,
      Finset.filter_empty, Finset.card_empty, Nat.cast_zero]
    simp [heff0]
  have hrc : runChecks s st t₁ [⟨key, l, w⟩] =
      (Option.none,
       { st with
          zsets := Function.update st.zsets (rateKey key t₁) {t₁},
          deadline := Function.update st.deadline (rateKey key t₁)
            (Option.some (t₁ + w)) },
       [RedisCmd.sismember "rate_limit:whitelist" key,
        RedisCmd.zremrangebyscore (rateKey key t₁) 0 (t₁ - w),
        RedisCmd.zcard (rateKey key t₁),
        RedisCmd.zadd (rateKey key t₁) t₁,
        RedisCmd.expire (rateKey key t₁) w]) := by
    simp only [runChecks]
    rw [hwl]
    simp [is_whitelisted, ha₁]
  have hlive₂ : liveZset
      { st with
          zsets := Function.update st.zsets (rateKey key t₁) {t₁},
          deadline := Function.update st.deadline (rateKey key t₁)
            (Option.some (t₁ + w)) } t₂ (rateKey key t₂) = ({t₁} : Finset ℚ) := by
    rw [hbucket]
    simp only [liveZset, keyLive, Function.update_same]
    rw [decide_eq_true (by linarith : t₂ < t₁ + (w : ℚ))]
    simp [Function.update_same]
  have hfilter : ({t₁} : Finset ℚ).filter
      (fun t => ¬((0 : ℚ) ≤ t ∧ t ≤ t₂ - (w : ℚ))) = {t₁} := by
    rw [Finset.filter_singleton,
      if_pos (fun hand => absurd hand.2 (not_le.mpr (by linarith)))]
  have ha₂ : is_allowed s
      { st with
          zsets := Function.update st.zsets (rateKey key t₁) {t₁},
          deadline := Function.update st.deadline (rateKey key t₁)
            (Option.some (t₁ + w)) } Option.none key l w (3 / 2) t₂ =
      ({ allowed := true, limit := l, remaining := max 0 ((l : ℤ) - 1),
         reset_time := t₂ + w },
       { st with
          zsets := Function.update
            (Function.update st.zsets (rateKey key t₁) {t₁})
            (rateKey key t₂) (insert t₂ {t₁}),
          deadline := Function.update
            (Function.update st.deadline (rateKey key t₁)
              (Option.some (t₁ + w)))
            (rateKey key t₂) (Option.some (t₂ + w)) },
       [RedisCmd.zremrangebyscore (rateKey key t₂) 0 (t₂ - w),
        RedisCmd.zcard (rateKey key t₂),
        RedisCmd.zadd (rateKey key t₂) t₂,
        RedisCmd.expire (rateKey key t₂) w]) := by
    simp only [is_allowed, hs, Bool.true_eq_false, if_false, hlive₂, hfilter,
      Finset.card_singleton, Nat.cast_one]
    simp [heff1]
  refine ⟨by rw [ha₁]; simp, ?_, ?_⟩
  · simp only [dispatch, hrc, ha₂]
    simp
    omega
  · simp only [dispatch, hrc, ha₂, hbucket, Function.update_same]
    rw [Finset.card_insert_of_not_mem
      (by simp only [Finset.mem_singleton]; exact ne_of_gt horder)]
    simp

/-- C5 witness: the amended statement instantiated on a fresh key with
`limit = 10`, `window = 60`, check at `t₁ = 1000` and annotation at
`t₂ = 1000.5`. -/
theorem C5_witness :
    (enabledSettings.rate_limit_enabled = true ∧ (1 : ℕ) ≤ 10 ∧
      emptyStore.zsets (rateKey "ip1" 1000) = ∅ ∧
      (is_whitelisted emptyStore false 1000 "ip1").1 = false ∧
      rateKey "ip1" (1000 + 1 / 2) = rateKey "ip1" 1000 ∧
      (1000 : ℚ) < 1000 + 1 / 2 ∧ (1000 + 1 / 2 : ℚ) - 1000 < ((60 : ℕ) : ℚ)) ∧
    (is_allowed enabledSettings emptyStore Option.none "ip1" 10 60 (3 / 2)
        1000).1.remaining = ((10 : ℕ) : ℤ) ∧
    (dispatch enabledSettings emptyStore [⟨"ip1", 10, 60⟩] 1000 (1000 + 1 / 2)).1 =
      DispatchOutcome.success
        (Option.some (((10 : ℕ) : ℤ), ((10 : ℕ) : ℤ) - 1,
          pyTrunc ((1000 + 1 / 2) + (60 : ℕ)))) ∧
    ((dispatch enabledSettings emptyStore [⟨"ip1", 10, 60⟩] 1000
        (1000 + 1 / 2)).2.1.zsets (rateKey "ip1" 1000)).card = 2 := by
  have h := C5_amended_headers enabledSettings emptyStore "ip1" 10 60 1000
    (1000 + 1 / 2) rfl (by norm_num) (by with_unfolding_all decide)
    (by with_unfolding_all decide) (by with_unfolding_all decide)
    (by norm_num) (by push_cast; norm_num)
  exact ⟨⟨rfl, by norm_num, by with_unfolding_all decide,
    by with_unfolding_all decide, by with_unfolding_all decide,
    by norm_num, by push_cast; norm_num⟩, h.1, h.2.1, h.2.2⟩

/-! ## C6 — disabled cache is a no-op -/


/-- C6: with `cache_enabled` false, `get` returns nothing, `set` and
`delete` return false, no store command is issued, and the store is
unchanged. -/
theorem C6_disabled_cache_noop (s : Settings) (st : RedisState) (fault : Bool)
    (pfx : String) (parts : List String) (v : PyVal) (ttl : Option ℕ) (now : ℚ)
    (hc : s.cache_enabled = false) :
    cache_get s st fault pfx parts now = (Option.none, st, []) ∧
    cache_set s st fault pfx parts v ttl now = (false, st, []) ∧
    cache_delete s st fault pfx parts now = (false, st, []) := by
  simp [cache_get, cache_set, cache_delete, hc]

/-- C6 witness: concrete disabled-cache calls. -/
theorem C6_witness :
    cacheDisabledSettings.cache_enabled = false ∧
    (cache_get cacheDisabledSettings emptyStore false "session" ["s1"] 0 =
        (Option.none, emptyStore, []) ∧
     cache_set cacheDisabledSettings emptyStore false "session" ["s1"]
        (PyVal.str "v") (Option.some 300) 0 = (false, emptyStore, []) ∧
     cache_delete cacheDisabledSettings emptyStore false "session" ["s1"] 0 =
        (false, emptyStore, [])) :=
  ⟨rfl, C6_disabled_cache_noop cacheDisabledSettings emptyStore false "session"
    ["s1"] (PyVal.str "v") (Option.some 300) 0 rfl⟩

/-! ## C7 — cache key determinism and distinctness -/

set_option maxRecDepth 10000 in
/-- C7: key derivation is a pure function of `(prefix, parts)` — equal
inputs give equal keys, on any call and across restarts — and the
specific distinct inputs `("x", a, b)` and `("x", a, c)` give distinct
keys (computed through the full SHA-256). -/
theorem C7_generate_key_deterministic_distinct :
    (∀ (p p' : String) (parts parts' : List String),
        p = p' → parts = parts' → generate_key p parts = generate_key p' parts') ∧
    generate_key "x" ["a", "b"] ≠ generate_key "x" ["a", "c"] := by
  constructor
  · intro p p' parts parts' hp hparts
    rw [hp, hparts]
  · with_unfolding_all decide

/-- C7 witness: the determinism conjunct applied at concrete inputs. -/
theorem C7_witness :
    ("x" = "x" ∧ (["a", "b"] : List String) = ["a", "b"] ∧
      generate_key "x" ["a", "b"] = generate_key "x" ["a", "b"]) ∧
    generate_key "x" ["a", "b"] ≠ generate_key "x" ["a", "c"] :=
  ⟨⟨rfl, rfl, C7_generate_key_deterministic_distinct.1 "x" "x" ["a", "b"] ["a", "b"] rfl rfl⟩,
   C7_generate_key_deterministic_distinct.2⟩

/-! ## C8 — retry-after tiers -/

/-- C8: on a rejected check with recorded count `c`, limit `l > 0` and
window `w`, `retry_after` is `min 60 (w/4)` when `c/l ≤ 1.2`,
`min 300 (w/2)` when `1.2 < c/l ≤ 2`, `min 900 w` otherwise (divisions
on `w` are the source's floor divisions), hence bounded by 60 / 300 /
900 in the three tiers. -/
theorem C8_retry_after_tiers (c l w : ℕ) (_hl : 0 < l) :
    (((c : ℚ) / l ≤ 6 / 5 → calculate_retry_after c l w = min 60 (w / 4)) ∧
     (6 / 5 < (c : ℚ) / l → (c : ℚ) / l ≤ 2 → calculate_retry_after c l w = min 300 (w / 2)) ∧
     (2 < (c : ℚ) / l → calculate_retry_after c l w = min 900 w)) ∧
    (((c : ℚ) / l ≤ 6 / 5 → calculate_retry_after c l w ≤ 60) ∧
     ((c : ℚ) / l ≤ 2 → calculate_retry_after c l w ≤ 300) ∧
     calculate_retry_after c l w ≤ 900) := by
  simp only [calculate_retry_after]
  split_ifs with h1 h2
  · exact ⟨⟨fun _ => rfl, fun hgt _ => absurd h1 (not_le.mpr hgt),
      fun hgt => absurd h1 (not_le.mpr (by linarith))⟩,
      fun _ => Nat.min_le_left _ _,
      fun _ => le_trans (Nat.min_le_left _ _) (by norm_num),
      le_trans (Nat.min_le_left _ _) (by norm_num)⟩
  · exact ⟨⟨fun hle => absurd hle h1, fun _ _ => rfl,
      fun hgt => absurd h2 (not_le.mpr hgt)⟩,
      fun hle => absurd hle h1,
      fun _ => Nat.min_le_left _ _,
      le_trans (Nat.min_le_left _ _) (by norm_num)⟩
  · exact ⟨⟨fun hle => absurd hle h1, fun _ hle => absurd hle h2,
      fun _ => rfl⟩,
      fun hle => absurd hle h1,
      fun hle => absurd hle h2,
      Nat.min_le_left _ _⟩

/-- C8 witness: count at 1.1× the limit lands in the first tier. -/
theorem C8_witness :
    (0 < 10 ∧ (11 : ℚ) / (10 : ℕ) ≤ 6 / 5) ∧
    calculate_retry_after 11 10 60 = min 60 (60 / 4) ∧
    calculate_retry_after 11 10 60 ≤ 60 :=
  ⟨⟨by norm_num, by norm_num⟩,
   (C8_retry_after_tiers 11 10 60 (by norm_num)).1.1 (by norm_num),
   (C8_retry_after_tiers 11 10 60 (by norm_num)).2.1 (by norm_num)⟩

/-! ## C10 — whitelist TTL applies to the whole set -/

/-- C10: `add_to_whitelist(key, ttl)` with a truthy TTL expires the one
shared whitelist key: afterwards the whole set carries the deadline
`now + ttl`, every previously whitelisted identity is still a member but
— like every other identity — stops being whitelisted once the deadline
passes.  There is no per-member TTL anywhere in the state. -/
theorem C10_whitelist_ttl_is_global (st : RedisState) (key k' : String)
    (t : ℕ) (now : ℚ) (ht : t ≠ 0)
    (hk' : k' ∈ liveSet st now "rate_limit:whitelist") :
    (add_to_whitelist st false key (Option.some t) now).1 = true ∧
    k' ∈ (add_to_whitelist st false key (Option.some t) now).2.1.smembers
      "rate_limit:whitelist" ∧
    (add_to_whitelist st false key (Option.some t) now).2.1.deadline
      "rate_limit:whitelist" = Option.some (now + t) ∧
    (∀ (m : String) (τ : ℚ), now + t ≤ τ →
      (is_whitelisted (add_to_whitelist st false key (Option.some t) now).2.1
        false τ m).1 = false) := by
  have hlive : keyLive st now "rate_limit:whitelist" = true := by
    by_contra hfalse
    rw [liveSet, if_neg hfalse] at hk'
    exact absurd hk' (Finset.not_mem_empty k')
  rw [liveSet, if_pos hlive] at hk'
  have hres : add_to_whitelist st false key (Option.some t) now =
      (true,
       { st with
          smembers := Function.update st.smembers "rate_limit:whitelist"
            (insert key (st.smembers "rate_limit:whitelist")),
          deadline := Function.update st.deadline "rate_limit:whitelist"
            (Option.some (now + t)) },
       [RedisCmd.sadd "rate_limit:whitelist" key,
        RedisCmd.expire "rate_limit:whitelist" t]) := by
    simp [add_to_whitelist, ht, hlive, Function.update_idem, Function.update_eq_self]
  refine ⟨by rw [hres], ?_, ?_, ?_⟩
  · rw [hres]
    simp only [Function.update_same]
    exact Finset.mem_insert_of_mem hk'
  · rw [hres]
    simp only [Function.update_same]
  · intro m τ hτ
    rw [hres]
    simp [is_whitelisted, liveSet, keyLive, Function.update_same, not_lt.mpr hτ]

/-- C10 witness: adding `new` with a 30-second TTL also puts the
pre-existing member `old` on the clock. -/
theorem C10_witness :
    ((30 : ℕ) ≠ 0 ∧ "old" ∈ liveSet c10Store 1000 "rate_limit:whitelist") ∧
    (add_to_whitelist c10Store false "new" (Option.some 30) 1000).1 = true ∧
    "old" ∈ (add_to_whitelist c10Store false "new" (Option.some 30) 1000).2.1.smembers
      "rate_limit:whitelist" ∧
    (add_to_whitelist c10Store false "new" (Option.some 30) 1000).2.1.deadline
      "rate_limit:whitelist" = Option.some ((1000 : ℚ) + ((30 : ℕ) : ℚ)) ∧
    (is_whitelisted (add_to_whitelist c10Store false "new" (Option.some 30) 1000).2.1
        false 1030 "old").1 = false := by
  have h := C10_whitelist_ttl_is_global c10Store "new" "old" 30 1000
    (by norm_num) (by with_unfolding_all decide)
  exact ⟨⟨by norm_num, by with_unfolding_all decide⟩, h.1, h.2.1, h.2.2.1,
    h.2.2.2 "old" 1030 (by norm_num)⟩

/-! ## C9 — serialization round-trip facts

The chain below proves that `json_loads` inverts `json_dumps` on every
modelled value, by induction over the printed form: digits, string
escapes, then the mutual value/array/object grammar. -/

theorem digitChar_toNat (d : ℕ) (h : d < 10) :
    (Char.ofNat (48 + d)).toNat = 48 + d := by
  interval_cases d <;> decide

theorem digitChar_isDigit (d : ℕ) (h : d < 10) :
    (Char.ofNat (48 + d)).isDigit = true := by
  interval_cases d <;> decide

theorem isDigit_ne (c d : Char) (h : c.isDigit = true)
    (hd : d.isDigit = false) : c ≠ d := by
  intro hcd
  rw [hcd, hd] at h
  exact Bool.false_ne_true h

theorem isDigit_not_ws (c : Char) (h : c.isDigit = true) :
    isWsChar c = false := by
  by_contra hw
  rw [Bool.not_eq_false] at hw
  simp only [isWsChar, Bool.or_eq_true, decide_eq_true_eq] at hw
  rcases hw with ((rfl | rfl) | rfl) | rfl <;> exact absurd h (by decide)

theorem natDigitsAux_all_digits :
    ∀ (fuel n : ℕ), ∀ c ∈ natDigitsAux fuel n, c.isDigit = true
  | 0, n => by simp [natDigitsAux]
  | fuel + 1, n => by
    intro c hc
    by_cases h10 : n < 10
    · rw [natDigitsAux, if_pos h10] at hc
      rcases List.mem_singleton.mp hc with rfl
      exact digitChar_isDigit n h10
    · rw [natDigitsAux, if_neg h10] at hc
      rcases List.mem_append.mp hc with h | h
      · exact natDigitsAux_all_digits fuel (n / 10) c h
      · rcases List.mem_singleton.mp h with rfl
        exact digitChar_isDigit (n % 10) (Nat.mod_lt n (by norm_num))

theorem natDigitsAux_ne_nil (fuel n : ℕ) (h : 0 < fuel) :
    natDigitsAux fuel n ≠ [] := by
  cases fuel with
  | zero => omega
  | succ f =>
    rw [natDigitsAux]
    split <;> simp

theorem natDigitsAux_foldl :
    ∀ (fuel n acc : ℕ), n < 10 ^ fuel →
      (natDigitsAux fuel n).foldl (fun a c => a * 10 + (c.toNat - 48)) acc =
        acc * 10 ^ (natDigitsAux fuel n).length + n
  | 0, n, acc, h => by
    simp only [natDigitsAux, List.foldl_nil, List.length_nil, pow_zero]
    omega
  | fuel + 1, n, acc, h => by
    by_cases h10 : n < 10
    · rw [natDigitsAux, if_pos h10]
      simp only [List.foldl_cons, List.foldl_nil, List.length_singleton,
        digitChar_toNat n h10, pow_one]
      omega
    · rw [natDigitsAux, if_neg h10]
      rw [List.foldl_append, List.length_append]
      have hdiv : n / 10 < 10 ^ fuel := by
        rw [Nat.div_lt_iff_lt_mul (by norm_num)]
        calc n < 10 ^ (fuel + 1) := h
          _ = 10 ^ fuel * 10 := by ring
      rw [natDigitsAux_foldl fuel (n / 10) acc hdiv]
      simp only [List.foldl_cons, List.foldl_nil, List.length_singleton,
        digitChar_toNat (n % 10) (Nat.mod_lt n (by norm_num))]
      have hdm := Nat.div_add_mod n 10
      have he : 48 + n % 10 - 48 = n % 10 := by omega
      calc (acc * 10 ^ (natDigitsAux fuel (n / 10)).length + n / 10) * 10 + (48 + n % 10 - 48)
          = acc * (10 ^ (natDigitsAux fuel (n / 10)).length * 10) +
              (10 * (n / 10) + n % 10) := by rw [he]; ring
        _ = acc * 10 ^ ((natDigitsAux fuel (n / 10)).length + 1) + n := by
              rw [pow_succ, hdm]

theorem parseDigitsAux_spec :
    ∀ (ds rest : List Char) (acc : ℕ),
      (∀ c ∈ ds, c.isDigit = true) →
      (∀ c, rest.head? = Option.some c → c.isDigit = false) →
      parseDigitsAux (ds ++ rest) acc =
        (ds.foldl (fun a c => a * 10 + (c.toNat - 48)) acc, rest)
  | [], rest, acc, _, hrest => by
    cases rest with
    | nil => simp [parseDigitsAux]
    | cons c tl =>
      rw [List.nil_append, List.foldl_nil, parseDigitsAux,
        if_neg (by simp [hrest c rfl])]
  | d :: ds, rest, acc, hds, hrest => by
    rw [List.cons_append, parseDigitsAux,
      if_pos (hds d (List.mem_cons_self d ds)), List.foldl_cons]
    exact parseDigitsAux_spec ds rest _
      (fun c hc => hds c (List.mem_cons_of_mem d hc)) hrest

theorem natDigits_parse (m : ℕ) (rest : List Char)
    (hrest : ∀ c, rest.head? = Option.some c → c.isDigit = false) :
    parseDigitsAux (natDigits m ++ rest) 0 = (m, rest) := by
  rw [parseDigitsAux_spec (natDigits m) rest 0
    (fun c hc => natDigitsAux_all_digits (m + 1) m c hc) hrest]
  rw [natDigits, natDigitsAux_foldl (m + 1) m 0
    (lt_of_lt_of_le (Nat.lt_pow_self (by norm_num) m)
      (Nat.pow_le_pow_right (by norm_num) (Nat.le_succ m)))]
  simp

theorem natDigits_head (m : ℕ) :
    ∃ c tl, natDigits m = c :: tl ∧ c.isDigit = true := by
  obtain ⟨c, tl, heq⟩ :=
    List.exists_cons_of_ne_nil (natDigitsAux_ne_nil (m + 1) m (Nat.succ_pos m))
  exact ⟨c, tl, heq,
    natDigitsAux_all_digits (m + 1) m c (heq ▸ List.mem_cons_self c tl)⟩

theorem parseNumber_intChars (n : ℤ) (rest : List Char)
    (hrest : ∀ c, rest.head? = Option.some c → c.isDigit = false) :
    parseNumber (intChars n ++ rest) = Option.some (n, rest) := by
  by_cases hneg : n < 0
  · rw [intChars, if_pos hneg, List.cons_append]
    obtain ⟨c, tl, heq, hcd⟩ := natDigits_head (-n).toNat
    rw [heq, List.cons_append]
    simp only [parseNumber, if_pos rfl]
    rw [if_pos hcd, ← List.cons_append, ← heq, natDigits_parse _ _ hrest]
    have h1 : ((-n).toNat : ℤ) = -n := Int.toNat_of_nonneg (by omega)
    simp [h1]
  · push_neg at hneg
    rw [intChars, if_neg (not_lt.mpr hneg)]
    obtain ⟨c, tl, heq, hcd⟩ := natDigits_head n.toNat
    rw [heq, List.cons_append]
    simp only [parseNumber]
    rw [if_neg (isDigit_ne c '-' hcd (by decide)), if_pos hcd,
      ← List.cons_append, ← heq, natDigits_parse _ _ hrest]
    simp [Int.toNat_of_nonneg hneg]

theorem skipWs_cons_of_not_ws {c : Char} (h : isWsChar c = false)
    (cs : List Char) : skipWs (c :: cs) = c :: cs := by
  simp [skipWs, h]

theorem skipWs_space (cs : List Char) : skipWs (' ' :: cs) = skipWs cs := by
  simp [skipWs, isWsChar]

theorem parseVal_ws (fuel : ℕ) (cs : List Char) :
    parseVal fuel (' ' :: cs) = parseVal fuel cs := by
  cases fuel with
  | zero => rfl
  | succ f => simp only [parseVal, skipWs_space]

theorem elemsLoop_ws (fuel n : ℕ) (cs : List Char) :
    elemsLoop (parseVal fuel) n (' ' :: cs) = elemsLoop (parseVal fuel) n cs := by
  cases n with
  | zero => rfl
  | succ m => simp only [elemsLoop, parseVal_ws]

theorem membersLoop_ws (fuel n : ℕ) (cs : List Char) :
    membersLoop (parseVal fuel) n (' ' :: cs) =
      membersLoop (parseVal fuel) n cs := by
  cases n with
  | zero => rfl
  | succ m => simp only [membersLoop, skipWs_space]

theorem hexDigit_roundtrip (d : ℕ) (h : d < 16) :
    parseHexDigit (hexDigit d) = Option.some d := by
  interval_cases d <;> decide

theorem parseStringBody_escape :
    ∀ (cs rest : List Char),
      parseStringBody ((cs.map escapeChar).flatten ++ '"' :: rest) =
        Option.some (cs, rest)
  | [], rest => by
    rw [List.map_nil, List.flatten_nil, List.nil_append, parseStringBody.eq_def]
    simp
  | c :: cs, rest => by
    rw [List.map_cons, List.flatten_cons, List.append_assoc]
    have ih := parseStringBody_escape cs rest
    by_cases h1 : c = '"'
    · subst h1
      simp only [escapeChar, if_pos rfl, List.cons_append, List.nil_append]
      rw [parseStringBody.eq_def]
      simp [ih]
    by_cases h2 : c = '\\'
    · subst h2
      simp only [escapeChar, if_neg h1, if_pos rfl, List.cons_append,
        List.nil_append]
      rw [parseStringBody.eq_def]
      simp [ih]
    by_cases h3 : c = '\n'
    · subst h3
      simp only [escapeChar, if_neg h1, if_neg h2, if_pos rfl,
        List.cons_append, List.nil_append]
      rw [parseStringBody.eq_def]
      simp [ih]
    by_cases h4 : c = '\r'
    · subst h4
      simp only [escapeChar, if_neg h1, if_neg h2, if_neg h3, if_pos rfl,
        List.cons_append, List.nil_append]
      rw [parseStringBody.eq_def]
      simp [ih]
    by_cases h5 : c = '\t'
    · subst h5
      simp only [escapeChar, if_neg h1, if_neg h2, if_neg h3, if_neg h4,
        if_pos rfl, List.cons_append, List.nil_append]
      rw [parseStringBody.eq_def]
      simp [ih]
    by_cases h6 : c.toNat = 8
    · have hc : Char.ofNat 8 = c := by rw [← h6, Char.ofNat_toNat]
      simp only [escapeChar, if_neg h1, if_neg h2, if_neg h3, if_neg h4,
        if_neg h5, if_pos h6, List.cons_append, List.nil_append]
      rw [parseStringBody.eq_def]
      simp [ih]
      exact hc
    by_cases h7 : c.toNat = 12
    · have hc : Char.ofNat 12 = c := by rw [← h7, Char.ofNat_toNat]
      simp only [escapeChar, if_neg h1, if_neg h2, if_neg h3, if_neg h4,
        if_neg h5, if_neg h6, if_pos h7, List.cons_append, List.nil_append]
      rw [parseStringBody.eq_def]
      simp [ih]
      exact hc
    by_cases h8 : c.toNat < 32
    · have hesc : escapeChar c = ['\\', 'u', '0', '0',
          hexDigit (c.toNat / 16), hexDigit (c.toNat % 16)] := by
        rw [escapeChar, if_neg h1, if_neg h2, if_neg h3, if_neg h4, if_neg h5,
          if_neg h6, if_neg h7, if_pos h8]
      rw [hesc]
      simp only [List.cons_append, List.nil_append]
      rw [parseStringBody.eq_def]
      have hval : c.toNat / 16 * 16 + c.toNat % 16 = c.toNat := by omega
      have hval' : 16 * (c.toNat / 16) + c.toNat % 16 = c.toNat := by omega
      have h0 : parseHexDigit '0' = Option.some 0 := by decide
      simp [h0, hexDigit_roundtrip (c.toNat / 16) (by omega),
        hexDigit_roundtrip (c.toNat % 16) (Nat.mod_lt _ (by norm_num)),
        hval, hval', Char.ofNat_toNat, ih]
    · have hesc : escapeChar c = [c] := by
        rw [escapeChar, if_neg h1, if_neg h2, if_neg h3, if_neg h4, if_neg h5,
          if_neg h6, if_neg h7, if_neg h8]
      rw [hesc]
      simp only [List.cons_append, List.nil_append]
      rw [parseStringBody.eq_def]
      simp [h1, h2, h8, ih]

theorem pvDepth_pos (v : PyVal) : 1 ≤ pvDepth v := by
  cases v <;> simp [pvDepth]

theorem intChars_head (n : ℤ) :
    ∃ c tl, intChars n = c :: tl ∧ (c = '-' ∨ c.isDigit = true) := by
  by_cases hneg : n < 0
  · exact ⟨'-', natDigits (-n).toNat, by rw [intChars, if_pos hneg], Or.inl rfl⟩
  · obtain ⟨c, tl, heq, hcd⟩ := natDigits_head n.toNat
    exact ⟨c, tl, by rw [intChars, if_neg hneg, heq], Or.inr hcd⟩

theorem dumpsChars_head (v : PyVal) :
    ∃ c tl, dumpsChars v = c :: tl ∧ isWsChar c = false ∧ c ≠ ']' ∧ c ≠ '\x7d' := by
  cases v with
  | str s =>
    exact ⟨'"', (s.data.map escapeChar).flatten ++ ['"'],
      by simp [dumpsChars, strLit], by decide, by decide, by decide⟩
  | int n =>
    obtain ⟨c, tl, heq, hc⟩ := intChars_head n
    refine ⟨c, tl, by simp [dumpsChars, heq], ?_, ?_, ?_⟩
    · rcases hc with rfl | hcd
      · decide
      · exact isDigit_not_ws c hcd
    · rcases hc with rfl | hcd
      · decide
      · exact isDigit_ne c ']' hcd (by decide)
    · rcases hc with rfl | hcd
      · decide
      · exact isDigit_ne c '\x7d' hcd (by decide)
  | bool b =>
    cases b
    · exact ⟨'f', ['a', 'l', 's', 'e'], by simp [dumpsChars],
        by decide, by decide, by decide⟩
    · exact ⟨'t', ['r', 'u', 'e'], by simp [dumpsChars],
        by decide, by decide, by decide⟩
  | none =>
    exact ⟨'n', ['u', 'l', 'l'], by simp [dumpsChars],
      by decide, by decide, by decide⟩
  | list xs =>
    exact ⟨'[', dumpsList xs ++ [']'], by simp [dumpsChars],
      by decide, by decide, by decide⟩
  | dict kvs =>
    exact ⟨'\x7b', dumpsDict kvs ++ ['\x7d'], by simp [dumpsChars],
      by decide, by decide, by decide⟩

theorem dumpsChars_ne_nil (v : PyVal) : dumpsChars v ≠ [] := by
  obtain ⟨c, tl, heq, _, _, _⟩ := dumpsChars_head v
  simp [heq]

theorem dumpsList_head (x : PyVal) (xs' : List PyVal) :
    ∃ c tl, dumpsList (x :: xs') = c :: tl ∧ isWsChar c = false ∧
      c ≠ ']' ∧ c ≠ '\x7d' := by
  obtain ⟨c, tl, heq, hnws, hbr, hbd⟩ := dumpsChars_head x
  cases xs' with
  | nil => exact ⟨c, tl, by simp [dumpsList, heq], hnws, hbr, hbd⟩
  | cons y ys =>
    exact ⟨c, tl ++ ',' :: ' ' :: dumpsList (y :: ys),
      by simp [dumpsList, heq], hnws, hbr, hbd⟩

theorem length_dumpsList_ge :
    ∀ xs : List PyVal, xs.length ≤ (dumpsList xs).length
  | [] => by simp [dumpsList]
  | [v] => by
    simpa [dumpsList] using List.length_pos.mpr (dumpsChars_ne_nil v)
  | v :: v' :: rest => by
    have h2 := length_dumpsList_ge (v' :: rest)
    have h3 := List.length_pos.mpr (dumpsChars_ne_nil v)
    simp only [dumpsList, List.length_cons, List.length_append] at h2 ⊢
    omega

theorem length_dumpsDict_ge :
    ∀ kvs : List (String × PyVal), kvs.length ≤ (dumpsDict kvs).length
  | [] => by simp [dumpsDict]
  | [kv] => by
    have : 1 ≤ (strLit kv.1).length := by simp [strLit]
    simp only [dumpsDict, List.length_singleton, List.length_append,
      List.length_cons, List.length_nil]
    omega
  | kv :: kv' :: rest => by
    have h2 := length_dumpsDict_ge (kv' :: rest)
    simp only [dumpsDict, List.length_cons, List.length_append] at h2 ⊢
    omega

mutual
theorem pvDepth_le_len : ∀ v : PyVal, pvDepth v ≤ (dumpsChars v).length
  | PyVal.str s => by
    simp [pvDepth, dumpsChars, strLit]
  | PyVal.int n => by
    have h := intChars_head n
    obtain ⟨c, tl, heq, _⟩ := h
    simp [pvDepth, dumpsChars, heq]
  | PyVal.bool b => by cases b <;> simp [pvDepth, dumpsChars]
  | PyVal.none => by simp [pvDepth, dumpsChars]
  | PyVal.list xs => by
    have h := pvDepthList_le_len xs
    simp only [pvDepth, dumpsChars, List.length_cons, List.length_append,
      List.length_singleton]
    omega
  | PyVal.dict kvs => by
    have h := pvDepthDict_le_len kvs
    simp only [pvDepth, dumpsChars, List.length_cons, List.length_append,
      List.length_singleton]
    omega

theorem pvDepthList_le_len : ∀ xs : List PyVal, pvDepthList xs ≤ (dumpsList xs).length
  | [] => by simp [pvDepthList, dumpsList]
  | [v] => by
    have h := pvDepth_le_len v
    simp only [pvDepthList, dumpsList]
    omega
  | v :: v' :: rest => by
    have h1 := pvDepth_le_len v
    have h2 := pvDepthList_le_len (v' :: rest)
    simp only [pvDepthList, dumpsList, List.length_append, List.length_cons] at h2 ⊢
    omega

theorem pvDepthDict_le_len :
    ∀ kvs : List (String × PyVal), pvDepthDict kvs ≤ (dumpsDict kvs).length
  | [] => by simp [pvDepthDict, dumpsDict]
  | [kv] => by
    have h := pvDepth_le_len kv.2
    simp only [pvDepthDict, dumpsDict, List.length_append, List.length_cons]
    omega
  | kv :: kv' :: rest => by
    have h1 := pvDepth_le_len kv.2
    have h2 := pvDepthDict_le_len (kv' :: rest)
    simp only [pvDepthDict, dumpsDict, List.length_append, List.length_cons] at h2 ⊢
    omega
end

theorem pvDepthList_mem_le (v : PyVal) :
    ∀ xs : List PyVal, v ∈ xs → pvDepth v ≤ pvDepthList xs
  | [], h => absurd h (List.not_mem_nil v)
  | x :: xs, h => by
    rcases List.mem_cons.mp h with rfl | h'
    · simp only [pvDepthList]
      exact le_max_left _ _
    · simp only [pvDepthList]
      exact le_trans (pvDepthList_mem_le v xs h') (le_max_right _ _)

theorem pvDepthDict_mem_le (kv : String × PyVal) :
    ∀ kvs : List (String × PyVal), kv ∈ kvs → pvDepth kv.2 ≤ pvDepthDict kvs
  | [], h => absurd h (List.not_mem_nil kv)
  | x :: kvs, h => by
    rcases List.mem_cons.mp h with rfl | h'
    · simp only [pvDepthDict]
      exact le_max_left _ _
    · simp only [pvDepthDict]
      exact le_trans (pvDepthDict_mem_le kv kvs h') (le_max_right _ _)

theorem headNotDigit_cons (c : Char) (h : c.isDigit = false) (tl : List Char) :
    ∀ d, (c :: tl).head? = Option.some d → d.isDigit = false := by
  intro d hd
  rw [List.head?_cons, Option.some.injEq] at hd
  rw [← hd]
  exact h


theorem skipWs_quote (X : List Char) : skipWs ('"' :: X) = '"' :: X :=
  skipWs_cons_of_not_ws (by decide) X

theorem skipWs_colon (X : List Char) : skipWs (':' :: X) = ':' :: X :=
  skipWs_cons_of_not_ws (by decide) X

theorem skipWs_comma (X : List Char) : skipWs (',' :: X) = ',' :: X :=
  skipWs_cons_of_not_ws (by decide) X

theorem skipWs_rbracket (X : List Char) : skipWs (']' :: X) = ']' :: X :=
  skipWs_cons_of_not_ws (by decide) X

theorem skipWs_rbrace (X : List Char) : skipWs ('\x7d' :: X) = '\x7d' :: X :=
  skipWs_cons_of_not_ws (by decide) X

theorem dumpsDict_head (kv : String × PyVal) (kvs' : List (String × PyVal)) :
    ∃ tl, dumpsDict (kv :: kvs') = '"' :: tl := by
  cases kvs' with
  | nil =>
    refine ⟨(kv.1.data.map escapeChar).flatten ++ '"' :: ':' :: ' ' ::
      dumpsChars kv.2, ?_⟩
    simp [dumpsDict, strLit]
  | cons kv' kvs'' =>
    refine ⟨(kv.1.data.map escapeChar).flatten ++ '"' :: ':' :: ' ' ::
      (dumpsChars kv.2 ++ ',' :: ' ' :: dumpsDict (kv' :: kvs'')), ?_⟩
    simp [dumpsDict, strLit]

mutual
theorem parseVal_dumps (v : PyVal) (rest : List Char) (fuel : ℕ)
    (hd : pvDepth v ≤ fuel)
    (hrest : ∀ c, rest.head? = Option.some c → c.isDigit = false) :
    parseVal fuel (dumpsChars v ++ rest) = Option.some (v, rest) := by
  obtain ⟨f, rfl⟩ : ∃ f, fuel = f + 1 := by
    cases fuel with
    | zero => exact absurd (le_trans (pvDepth_pos v) hd) (by omega)
    | succ f => exact ⟨f, rfl⟩
  cases v with
  | str s =>
    rw [show dumpsChars (PyVal.str s) = strLit s from by simp [dumpsChars],
      strLit, List.cons_append, List.append_assoc, List.singleton_append]
    simp only [parseVal]
    rw [skipWs_quote]
    simp [parseStringBody_escape s.data rest]
  | int n =>
    obtain ⟨c, tl, heq, hc⟩ := intChars_head n
    rw [show dumpsChars (PyVal.int n) = intChars n from by simp [dumpsChars],
      heq, List.cons_append]
    simp only [parseVal]
    have hnws : isWsChar c = false := by
      rcases hc with rfl | hcd
      · decide
      · exact isDigit_not_ws c hcd
    have hne : ∀ d : Char, d.isDigit = false → d ≠ '-' → c ≠ d := by
      intro d hdig hdm
      rcases hc with rfl | hcd
      · exact Ne.symm hdm
      · exact isDigit_ne c d hcd hdig
    have h1 : ¬ (c = '"') := hne '"' (by decide) (by decide)
    have h2 : ¬ (c = '\x7b') := hne '\x7b' (by decide) (by decide)
    have h3 : ¬ (c = '[') := hne '[' (by decide) (by decide)
    have h4 : ¬ (c = 't') := hne 't' (by decide) (by decide)
    have h5 : ¬ (c = 'f') := hne 'f' (by decide) (by decide)
    have h6 : ¬ (c = 'n') := hne 'n' (by decide) (by decide)
    have hpn : parseNumber (c :: (tl ++ rest)) = Option.some (n, rest) := by
      rw [← List.cons_append, ← heq]
      exact parseNumber_intChars n rest hrest
    simp [skipWs_cons_of_not_ws hnws, h1, h2, h3, h4, h5, h6, hpn]
  | bool b =>
    cases b
    · rw [show dumpsChars (PyVal.bool false) = ['f', 'a', 'l', 's', 'e'] from
        by simp [dumpsChars]]
      simp only [List.cons_append, List.nil_append, parseVal]
      rw [skipWs_cons_of_not_ws (by decide)]
      simp
    · rw [show dumpsChars (PyVal.bool true) = ['t', 'r', 'u', 'e'] from
        by simp [dumpsChars]]
      simp only [List.cons_append, List.nil_append, parseVal]
      rw [skipWs_cons_of_not_ws (by decide)]
      simp
  | none =>
    rw [show dumpsChars PyVal.none = ['n', 'u', 'l', 'l'] from
      by simp [dumpsChars]]
    simp only [List.cons_append, List.nil_append, parseVal]
    rw [skipWs_cons_of_not_ws (by decide)]
    simp
  | list xs =>
    cases xs with
    | nil =>
      rw [show dumpsChars (PyVal.list []) = ['[', ']'] from
        by simp [dumpsChars, dumpsList]]
      simp only [List.cons_append, List.nil_append, parseVal]
      rw [skipWs_cons_of_not_ws (by decide)]
      simp [skipWs_rbracket]
    | cons x xs' =>
      rw [show dumpsChars (PyVal.list (x :: xs')) =
          '[' :: (dumpsList (x :: xs') ++ [']']) from by simp [dumpsChars],
        List.cons_append, List.append_assoc, List.singleton_append]
      simp only [parseVal]
      rw [skipWs_cons_of_not_ws (by decide)]
      obtain ⟨c, tl, hhead, hnws, hnbr, _⟩ := dumpsList_head x xs'
      have hskip : skipWs (dumpsList (x :: xs') ++ ']' :: rest) =
          dumpsList (x :: xs') ++ ']' :: rest := by
        rw [hhead, List.cons_append]
        exact skipWs_cons_of_not_ws hnws _
      have hhq : (dumpsList (x :: xs') ++ ']' :: rest).head? ≠
          Option.some ']' := by
        rw [hhead, List.cons_append, List.head?_cons]
        simp [hnbr]
      have hlenL := length_dumpsList_ge (x :: xs')
      have hlen : (x :: xs').length ≤
          (dumpsList (x :: xs') ++ ']' :: rest).length + 1 := by
        simp only [List.length_cons] at hlenL ⊢
        simp only [List.length_append, List.length_cons]
        omega
      have hdepth : ∀ u ∈ x :: xs', pvDepth u ≤ f := by
        intro u hu
        have h1 := pvDepthList_mem_le u (x :: xs') hu
        simp only [pvDepth] at hd
        omega
      simp [hskip]
      rw [if_neg (by rw [hhead]; simp [hnbr])]
      rw [elemsLoop_dumps f (x :: xs')
        ((dumpsList (x :: xs')).length + (rest.length + 1) + 1) rest
        (by simp)
        (by simp only [List.length_cons] at hlenL ⊢; omega) hdepth]
      rfl
  | dict kvs =>
    cases kvs with
    | nil =>
      rw [show dumpsChars (PyVal.dict []) = ['\x7b', '\x7d'] from
        by simp [dumpsChars, dumpsDict]]
      simp only [List.cons_append, List.nil_append, parseVal]
      rw [skipWs_cons_of_not_ws (by decide)]
      simp [skipWs_rbrace]
    | cons kv kvs' =>
      rw [show dumpsChars (PyVal.dict (kv :: kvs')) =
          '\x7b' :: (dumpsDict (kv :: kvs') ++ ['\x7d']) from by simp [dumpsChars],
        List.cons_append, List.append_assoc, List.singleton_append]
      simp only [parseVal]
      rw [skipWs_cons_of_not_ws (by decide)]
      obtain ⟨tl, hhead⟩ := dumpsDict_head kv kvs'
      have hskip : skipWs (dumpsDict (kv :: kvs') ++ '\x7d' :: rest) =
          dumpsDict (kv :: kvs') ++ '\x7d' :: rest := by
        rw [hhead, List.cons_append]
        exact skipWs_quote _
      have hhq : (dumpsDict (kv :: kvs') ++ '\x7d' :: rest).head? ≠
          Option.some '\x7d' := by
        rw [hhead, List.cons_append, List.head?_cons]
        simp
      have hlenD := length_dumpsDict_ge (kv :: kvs')
      have hlen : (kv :: kvs').length ≤
          (dumpsDict (kv :: kvs') ++ '\x7d' :: rest).length + 1 := by
        simp only [List.length_cons] at hlenD ⊢
        simp only [List.length_append, List.length_cons]
        omega
      have hdepth : ∀ p ∈ kv :: kvs', pvDepth p.2 ≤ f := by
        intro p hp
        have h1 := pvDepthDict_mem_le p (kv :: kvs') hp
        simp only [pvDepth] at hd
        omega
      simp [hskip]
      rw [if_neg (by rw [hhead]; simp)]
      rw [membersLoop_dumps f (kv :: kvs')
        ((dumpsDict (kv :: kvs')).length + (rest.length + 1) + 1) rest
        (by simp)
        (by simp only [List.length_cons] at hlenD ⊢; omega) hdepth]
      rfl
termination_by (fuel, 0, 0)

theorem elemsLoop_dumps (f : ℕ) (xs : List PyVal) (n : ℕ) (rest : List Char)
    (hne : xs ≠ []) (hn : xs.length ≤ n)
    (hfuel : ∀ v ∈ xs, pvDepth v ≤ f) :
    elemsLoop (parseVal f) n (dumpsList xs ++ ']' :: rest) =
      Option.some (xs, rest) := by
  obtain ⟨m, rfl⟩ : ∃ m, n = m + 1 := by
    cases n with
    | zero =>
      have := List.length_pos.mpr hne
      omega
    | succ m => exact ⟨m, rfl⟩
  cases xs with
  | nil => exact absurd rfl hne
  | cons x xs' =>
    cases xs' with
    | nil =>
      rw [show dumpsList [x] = dumpsChars x from by simp [dumpsList]]
      have hpv := parseVal_dumps x (']' :: rest) f
        (hfuel x (List.mem_cons_self x []))
        (headNotDigit_cons ']' (by decide) rest)
      simp only [elemsLoop]
      simp [hpv, skipWs_rbracket]
    | cons y ys =>
      rw [show dumpsList (x :: y :: ys) =
          dumpsChars x ++ ',' :: ' ' :: dumpsList (y :: ys) from
          by simp [dumpsList],
        List.append_assoc, List.cons_append, List.cons_append]
      have hpv := parseVal_dumps x
        (',' :: ' ' :: (dumpsList (y :: ys) ++ ']' :: rest)) f
        (hfuel x (List.mem_cons_self x (y :: ys)))
        (headNotDigit_cons ',' (by decide) _)
      have hn' : (y :: ys).length ≤ m := by
        simp only [List.length_cons] at hn ⊢
        omega
      have hrec := elemsLoop_dumps f (y :: ys) m rest (by simp) hn'
        (fun u hu => hfuel u (List.mem_cons_of_mem x hu))
      simp only [elemsLoop]
      simp [hpv, skipWs_comma, elemsLoop_ws, hrec]
termination_by (f, 1, xs.length)

theorem membersLoop_dumps (f : ℕ) (kvs : List (String × PyVal)) (n : ℕ)
    (rest : List Char) (hne : kvs ≠ []) (hn : kvs.length ≤ n)
    (hfuel : ∀ p ∈ kvs, pvDepth p.2 ≤ f) :
    membersLoop (parseVal f) n (dumpsDict kvs ++ '\x7d' :: rest) =
      Option.some (kvs, rest) := by
  obtain ⟨m, rfl⟩ : ∃ m, n = m + 1 := by
    cases n with
    | zero =>
      have := List.length_pos.mpr hne
      omega
    | succ m => exact ⟨m, rfl⟩
  cases kvs with
  | nil => exact absurd rfl hne
  | cons kv kvs' =>
    obtain ⟨k, v⟩ := kv
    cases kvs' with
    | nil =>
      rw [show dumpsDict [(k, v)] = strLit k ++ ':' :: ' ' :: dumpsChars v from
          by simp [dumpsDict],
        strLit, List.cons_append, List.append_assoc, List.singleton_append,
        List.cons_append]
      have hpv : parseVal f (dumpsChars v ++ '\x7d' :: rest) =
          Option.some (v, '\x7d' :: rest) :=
        parseVal_dumps v ('\x7d' :: rest) f
          (hfuel (k, v) (List.mem_cons_self (k, v) []))
          (headNotDigit_cons '\x7d' (by decide) rest)
      have hsb := parseStringBody_escape k.data
        (':' :: ' ' :: (dumpsChars v ++ '\x7d' :: rest))
      simp only [membersLoop, skipWs_quote, List.append_assoc,
        List.cons_append, hsb, skipWs_colon, parseVal_ws, hpv, skipWs_rbrace]
    | cons kv' kvs'' =>
      rw [show dumpsDict ((k, v) :: kv' :: kvs'') =
          strLit k ++ ':' :: ' ' :: dumpsChars v ++
            ',' :: ' ' :: dumpsDict (kv' :: kvs'') from by simp [dumpsDict],
        strLit]
      simp only [List.cons_append, List.append_assoc, List.singleton_append,
        List.nil_append]
      have hpv : parseVal f (dumpsChars v ++
          ',' :: ' ' :: (dumpsDict (kv' :: kvs'') ++ '\x7d' :: rest)) =
          Option.some (v, ',' :: ' ' :: (dumpsDict (kv' :: kvs'') ++ '\x7d' :: rest)) :=
        parseVal_dumps v _ f
          (hfuel (k, v) (List.mem_cons_self (k, v) (kv' :: kvs'')))
          (headNotDigit_cons ',' (by decide) _)
      have hsb := parseStringBody_escape k.data
        (':' :: ' ' :: (dumpsChars v ++
          ',' :: ' ' :: (dumpsDict (kv' :: kvs'') ++ '\x7d' :: rest)))
      have hn' : (kv' :: kvs'').length ≤ m := by
        simp only [List.length_cons] at hn ⊢
        omega
      have hrec := membersLoop_dumps f (kv' :: kvs'') m rest (by simp) hn'
        (fun p hp => hfuel p (List.mem_cons_of_mem (k, v) hp))
      simp only [membersLoop, skipWs_quote, List.append_assoc,
        List.cons_append, hsb, skipWs_colon, parseVal_ws, hpv, skipWs_comma,
        membersLoop_ws, hrec]
      rfl
termination_by (f, 1, kvs.length)
end

theorem json_loads_dumps (v : PyVal) :
    json_loads (json_dumps v) = Option.some v := by
  have hlen : pvDepth v ≤ (dumpsChars v).length + 1 :=
    le_trans (pvDepth_le_len v) (Nat.le_succ _)
  have key : ∀ L : ℕ, pvDepth v ≤ L →
      parseVal L (dumpsChars v) = Option.some (v, []) := by
    intro L hL
    have hp := parseVal_dumps v [] L hL (fun c h => by simp at h)
    rwa [List.append_nil] at hp
  simp only [json_loads, json_dumps]
  rw [key _ hlen]
  simp [skipWs]

/-- C9: cache serialization followed by deserialization is not the
identity on scalars whose text parses as JSON — the string `"123"` comes
back as the integer `123`, and `True` comes back as the *string*
`"True"` (Python's `str(True)` is not valid JSON) — while every
dict or list built of JSON-representable values (and, as every actual
Python dict, with distinct keys) round-trips exactly. -/
theorem C9_serialize_roundtrip :
    (deserialize_data (serialize_data (PyVal.str "123")) = PyVal.int 123 ∧
      PyVal.int 123 ≠ PyVal.str "123") ∧
    (deserialize_data (serialize_data (PyVal.bool true)) = PyVal.str "True" ∧
      PyVal.str "True" ≠ PyVal.bool true) ∧
    (∀ v : PyVal, nodupKeys v = true → v.isContainer = true →
      deserialize_data (serialize_data v) = v) := by
  refine ⟨⟨rfl, fun h => PyVal.noConfusion h⟩,
    ⟨rfl, fun h => PyVal.noConfusion h⟩, ?_⟩
  intro v _ hc
  cases v with
  | str s => exact absurd hc (by simp [PyVal.isContainer])
  | int n => exact absurd hc (by simp [PyVal.isContainer])
  | bool b => exact absurd hc (by simp [PyVal.isContainer])
  | none => exact absurd hc (by simp [PyVal.isContainer])
  | list xs =>
    show deserialize_data (json_dumps (PyVal.list xs)) = PyVal.list xs
    rw [deserialize_data, json_loads_dumps]
  | dict kvs =>
    show deserialize_data (json_dumps (PyVal.dict kvs)) = PyVal.dict kvs
    rw [deserialize_data, json_loads_dumps]

/-- C9 witness: a three-key dict with nested list, negative int, null
and bool round-trips through the serializer. -/
theorem C9_witness :
    (nodupKeys c9Dict = true ∧ c9Dict.isContainer = true) ∧
    deserialize_data (serialize_data c9Dict) = c9Dict :=
  ⟨⟨by simp [c9Dict, nodupKeys, nodupKeysList, nodupKeysDict, keysNodup], rfl⟩,
   C9_serialize_roundtrip.2.2 c9Dict
     (by simp [c9Dict, nodupKeys, nodupKeysList, nodupKeysDict, keysNodup]) rfl⟩
